import Mathlib

/-!
Verification of the hybrid retrieval and chunking core of the repository.

The development shallowly embeds the Python source files
`app/core/retrieval/hybrid.py`, `app/core/retrieval/orchestrator.py`,
`app/core/retrieval/reranker_hf.py`, `app/core/retrieval/reranker_mistral.py`,
`app/core/retrieval/keyword_retriever.py`, `app/core/retrieval/vector_retriever.py`,
`app/core/vector_store.py` and `app/core/chunking.py` into Lean.

Modelling conventions:
- Python floats are modelled as rationals (`ℚ`); the float value minus infinity,
  which the Mistral reranker uses as a sentinel, is modelled by the dedicated
  type `RScore` with a bottom element.
- Python dicts (which preserve insertion order, per the language reference) are
  modelled as association lists in which updating an existing key keeps its
  position and inserting a new key appends it.
- The stable `sorted` builtin of Python is modelled by `List.insertionSort`
  with a total preorder; insertion sort is stable, so it computes the same list
  as any other stable sort with the same comparison.
- External collaborators (the tokenizer, the hash function, the Postgres
  rank function, the Qdrant index, HTTP transports, rerank providers)
  are parameters of the embedded functions.
-/

/-- A relevance value as used in the `rerank_score` field: either the float
value minus infinity (the sentinel of the Mistral reranker) or a finite value. -/
inductive RScore where
  | negInf : RScore
  | val : ℚ → RScore
deriving DecidableEq, Repr

/-- Ordering on `RScore`: minus infinity is below every finite value. -/
def RScore.le : RScore → RScore → Prop
  | .negInf, _ => True
  | .val _, .negInf => False
  | .val a, .val b => a ≤ b

instance RScore.decLe : DecidableRel RScore.le
  | .negInf, _ => isTrue trivial
  | .val _, .negInf => isFalse (fun h => h)
  | .val a, .val b => inferInstanceAs (Decidable (a ≤ b))

theorem rscore_le_total (a b : RScore) : RScore.le a b ∨ RScore.le b a := by
  cases a with
  | negInf => exact Or.inl trivial
  | val qa =>
    cases b with
    | negInf => exact Or.inr trivial
    | val qb => exact le_total qa qb

theorem rscore_le_trans {a b c : RScore} (h1 : RScore.le a b) (h2 : RScore.le b c) :
    RScore.le a c := by
  cases a with
  | negInf => exact trivial
  | val qa =>
    cases b with
    | negInf => exact absurd h1 (fun h => h)
    | val qb =>
      cases c with
      | negInf => exact absurd h2 (fun h => h)
      | val qc => exact le_trans (α := ℚ) h1 h2

/-- Embedding of the dataclass `RetrievedChunk` from `app/services/retrieval.py`. -/
structure RetrievedChunk where
  chunk_id : String
  document_id : String
  document_filename : String
  content : String
  page_number : Option Int
  section_title : Option String
  score : ℚ
  fused_score : Option ℚ := none
  rerank_score : Option RScore := none
deriving DecidableEq, Repr

/-- Lookup in a Python-dict model: the value stored at `key`, or the default. -/
def dictGet {α : Type} : List (String × α) → String → α → α
  | [], _, d => d
  | (k0, v0) :: rest, key, d => if k0 = key then v0 else dictGet rest key d

/-- Optional lookup in a Python-dict model. -/
def dictFind? {α : Type} : List (String × α) → String → Option α
  | [], _ => none
  | (k0, v0) :: rest, key => if k0 = key then some v0 else dictFind? rest key

/-- Store `key ↦ v` in a Python-dict model: an existing key keeps its position
(insertion order), a new key is appended at the end. -/
def dictSet {α : Type} : List (String × α) → String → α → List (String × α)
  | [], key, v => [(key, v)]
  | (k0, v0) :: rest, key, v =>
      if k0 = key then (k0, v) :: rest else (k0, v0) :: dictSet rest key v

/-- The keys of a Python-dict model, in insertion order. -/
def dictKeys {α : Type} (m : List (String × α)) : List String := m.map Prod.fst

theorem dictGet_dictSet {α : Type} (m : List (String × α)) (key key' : String)
    (v : α) (d : α) :
    dictGet (dictSet m key v) key' d = if key' = key then v else dictGet m key' d := by
  induction m with
  | nil =>
    by_cases h : key' = key
    · simp [dictSet, dictGet, h]
    · have h2 : ¬ key = key' := fun h' => h h'.symm
      simp [dictSet, dictGet, h, h2]
  | cons p rest ih =>
    obtain ⟨k0, v0⟩ := p
    by_cases h0 : k0 = key
    · subst h0
      by_cases h : k0 = key'
      · subst h
        simp [dictSet, dictGet]
      · have h2 : ¬ key' = k0 := fun h' => h h'.symm
        simp [dictSet, dictGet, h, h2]
    · by_cases h : k0 = key'
      · subst h
        have h2 : ¬ k0 = key := h0
        simp [dictSet, dictGet, h2]
      · simp [dictSet, dictGet, h0, h, ih]

theorem dictFind?_dictSet {α : Type} (m : List (String × α)) (key key' : String)
    (v : α) :
    dictFind? (dictSet m key v) key' = if key' = key then some v else dictFind? m key' := by
  induction m with
  | nil =>
    by_cases h : key' = key
    · simp [dictSet, dictFind?, h]
    · have h2 : ¬ key = key' := fun h' => h h'.symm
      simp [dictSet, dictFind?, h, h2]
  | cons p rest ih =>
    obtain ⟨k0, v0⟩ := p
    by_cases h0 : k0 = key
    · subst h0
      by_cases h : k0 = key'
      · subst h
        simp [dictSet, dictFind?]
      · have h2 : ¬ key' = k0 := fun h' => h h'.symm
        simp [dictSet, dictFind?, h, h2]
    · by_cases h : k0 = key'
      · subst h
        simp [dictSet, dictFind?, h0]
      · simp [dictSet, dictFind?, h0, h, ih]

theorem dictKeys_dictSet {α : Type} (m : List (String × α)) (key : String) (v : α) :
    dictKeys (dictSet m key v)
      = if key ∈ dictKeys m then dictKeys m else dictKeys m ++ [key] := by
  induction m with
  | nil => simp [dictSet, dictKeys]
  | cons p rest ih =>
    obtain ⟨k0, v0⟩ := p
    by_cases h0 : k0 = key
    · subst h0
      simp [dictSet, dictKeys]
    · have hne : ¬ key = k0 := fun h => h0 h.symm
      by_cases hmem : key ∈ dictKeys rest
      · simp only [dictKeys] at hmem
        simp only [dictKeys, List.map_cons] at ih ⊢
        simp only [dictSet, if_neg h0, List.map_cons]
        rw [ih]
        simp [hmem, hne]
      · simp only [dictKeys] at hmem
        simp only [dictKeys, List.map_cons] at ih ⊢
        simp only [dictSet, if_neg h0, List.map_cons]
        rw [ih]
        simp [hmem, hne]

theorem dictKeys_nodup_dictSet {α : Type} (m : List (String × α)) (key : String)
    (v : α) (h : (dictKeys m).Nodup) : (dictKeys (dictSet m key v)).Nodup := by
  rw [dictKeys_dictSet]
  by_cases hmem : key ∈ dictKeys m
  · simpa [hmem]
  · simp [hmem, List.nodup_append, h, List.disjoint_singleton]
    try exact hmem

theorem mem_dictKeys_dictSet {α : Type} (m : List (String × α)) (key key' : String)
    (v : α) : key' ∈ dictKeys (dictSet m key v) ↔ key' ∈ dictKeys m ∨ key' = key := by
  rw [dictKeys_dictSet]
  by_cases hmem : key ∈ dictKeys m
  · simp [hmem]
    intro h
    subst h
    exact hmem
  · simp [hmem]

theorem dictFind?_isSome_iff {α : Type} (m : List (String × α)) (key : String) :
    (dictFind? m key).isSome ↔ key ∈ dictKeys m := by
  induction m with
  | nil => simp [dictFind?, dictKeys]
  | cons p rest ih =>
    obtain ⟨k0, v0⟩ := p
    by_cases h : k0 = key
    · simp [dictFind?, dictKeys, h]
    · have : ¬ key = k0 := fun h' => h h'.symm
      simp [dictFind?, dictKeys, h, this, ih]

theorem dictFind?_mem_values {α : Type} (m : List (String × α)) (key : String)
    (v : α) (h : dictFind? m key = some v) : (key, v) ∈ m := by
  induction m with
  | nil => simp [dictFind?] at h
  | cons p rest ih =>
    obtain ⟨k0, v0⟩ := p
    by_cases h0 : k0 = key
    · subst h0
      simp [dictFind?] at h
      simp [h]
    · simp [dictFind?, h0] at h
      exact List.mem_cons_of_mem _ (ih h)

/-- A default record, standing for the (never reached) KeyError case of the
Python dict lookup `chunk_map[cid]` in `rrf_merge`. -/
def defaultChunk : RetrievedChunk :=
  { chunk_id := "", document_id := "", document_filename := "", content := "",
    page_number := none, section_title := none, score := 0 }

/-- One pass of the keyword loop of `rrf_merge` (hybrid.py, lines 21-25):
walks the keyword results with 1-based rank `rank`, adding `1/(k + rank)` to
the running score of the chunk id and storing the first record seen for it. -/
def rrfKeywordPass (k : ℕ) :
    List RetrievedChunk → ℕ → List (String × ℚ) × List (String × RetrievedChunk) →
      List (String × ℚ) × List (String × RetrievedChunk)
  | [], _, st => st
  | c :: rest, rank, (sm, cm) =>
      let sm' := dictSet sm c.chunk_id
        (dictGet sm c.chunk_id 0 + 1 / ((k : ℚ) + (rank : ℚ)))
      let cm' := match dictFind? cm c.chunk_id with
        | none => dictSet cm c.chunk_id c
        | some _ => cm
      rrfKeywordPass k rest (rank + 1) (sm', cm')

/-- One pass of the vector loop of `rrf_merge` (hybrid.py, lines 28-35):
same scoring, but a stored record with an empty `document_filename` is
replaced by a record that carries one. -/
def rrfVectorPass (k : ℕ) :
    List RetrievedChunk → ℕ → List (String × ℚ) × List (String × RetrievedChunk) →
      List (String × ℚ) × List (String × RetrievedChunk)
  | [], _, st => st
  | c :: rest, rank, (sm, cm) =>
      let sm' := dictSet sm c.chunk_id
        (dictGet sm c.chunk_id 0 + 1 / ((k : ℚ) + (rank : ℚ)))
      let cm' := match dictFind? cm c.chunk_id with
        | none => dictSet cm c.chunk_id c
        | some stored =>
            if stored.document_filename = "" ∧ c.document_filename ≠ "" then
              dictSet cm c.chunk_id c
            else cm
      rrfVectorPass k rest (rank + 1) (sm', cm')

/-- Embedding of `rrf_merge` from `app/core/retrieval/hybrid.py`.

The constant `k` (default 60 in the source, `settings.hybrid_rrf_k` at the
call site) is the non-negative RRF constant and is modelled as a natural
number. The final `sorted(score_map, key=..., reverse=True)` is a stable
descending sort over the dict keys in insertion order, modelled by
`List.insertionSort` with the total preorder comparing scores descending. -/
def rrf_merge (keyword_results vector_results : List RetrievedChunk) (k : ℕ) :
    List RetrievedChunk :=
  let st := rrfKeywordPass k keyword_results 1 ([], [])
  let st := rrfVectorPass k vector_results 1 st
  let sm := st.1
  let cm := st.2
  let sorted_ids := List.insertionSort
    (fun a b => dictGet sm b 0 ≤ dictGet sm a 0) (dictKeys sm)
  sorted_ids.map (fun cid =>
    { (dictFind? cm cid).getD defaultChunk with fused_score := some (dictGet sm cid 0) })

/-- The contribution of all appearances of chunk id `cid` in a result list to
the reciprocal-rank-fusion score, when the first element of the list has rank
`r`: each appearance at rank `rk` contributes `1/(k + rk)`. -/
def contribFrom (k : ℕ) (cid : String) : ℕ → List RetrievedChunk → ℚ
  | _, [] => 0
  | r, c :: rest =>
      (if c.chunk_id = cid then 1 / ((k : ℚ) + (r : ℚ)) else 0)
        + contribFrom k cid (r + 1) rest

/-- The total reciprocal-rank-fusion contribution of a result list to chunk id
`cid`, with 1-based ranks in list order. -/
def contrib (k : ℕ) (cid : String) (l : List RetrievedChunk) : ℚ :=
  contribFrom k cid 1 l

/-- Chunk id `cid` appears in `l` exactly once, at 1-based rank `r`. -/
def appearsOnceAt (l : List RetrievedChunk) (cid : String) (r : ℕ) : Prop :=
  ∃ pre c post, l = pre ++ c :: post ∧ c.chunk_id = cid ∧ r = pre.length + 1 ∧
    cid ∉ pre.map RetrievedChunk.chunk_id ∧ cid ∉ post.map RetrievedChunk.chunk_id

theorem dictSet_mem {α : Type} (m : List (String × α)) (key : String) (v : α)
    (p : String × α) (h : p ∈ dictSet m key v) : p ∈ m ∨ p = (key, v) := by
  induction m with
  | nil => simpa [dictSet] using h
  | cons q rest ih =>
    obtain ⟨k0, v0⟩ := q
    by_cases h0 : k0 = key
    · subst h0
      simp [dictSet] at h
      rcases h with h | h
      · exact Or.inr (by simp [h])
      · exact Or.inl (List.mem_cons_of_mem _ h)
    · simp [dictSet, h0] at h
      rcases h with h | h
      · exact Or.inl (by simp [h])
      · rcases ih h with h' | h'
        · exact Or.inl (List.mem_cons_of_mem _ h')
        · exact Or.inr h'

theorem mem_dictKeys_of_dictSet {α : Type} (m : List (String × α)) (key x : String)
    (v : α) (h : x ∈ dictKeys m) : x ∈ dictKeys (dictSet m key v) :=
  (mem_dictKeys_dictSet m key x v).mpr (Or.inl h)

theorem contribFrom_append (k : ℕ) (cid : String) (r : ℕ)
    (l1 l2 : List RetrievedChunk) :
    contribFrom k cid r (l1 ++ l2)
      = contribFrom k cid r l1 + contribFrom k cid (r + l1.length) l2 := by
  induction l1 generalizing r with
  | nil => simp [contribFrom]
  | cons c rest ih =>
    simp only [List.cons_append, contribFrom, List.length_cons, List.append_eq]
    rw [ih (r + 1)]
    have : r + 1 + rest.length = r + (rest.length + 1) := by omega
    rw [this]
    ring

theorem contribFrom_not_mem (k : ℕ) (cid : String) (r : ℕ)
    (l : List RetrievedChunk) (h : cid ∉ l.map RetrievedChunk.chunk_id) :
    contribFrom k cid r l = 0 := by
  induction l generalizing r with
  | nil => simp [contribFrom]
  | cons c rest ih =>
    simp only [List.map_cons, List.mem_cons] at h
    push_neg at h
    have hne : ¬ c.chunk_id = cid := fun h' => h.1 h'.symm
    simp [contribFrom, hne, ih _ h.2]

/-- A chunk id appearing exactly once at rank `r` contributes exactly
`1/(k + r)`. -/
theorem contrib_of_appearsOnceAt (k : ℕ) (cid : String) (r : ℕ)
    (l : List RetrievedChunk) (h : appearsOnceAt l cid r) :
    contrib k cid l = 1 / ((k : ℚ) + (r : ℚ)) := by
  obtain ⟨pre, c, post, hl, hcid, hr, hpre, hpost⟩ := h
  subst hl
  unfold contrib
  rw [contribFrom_append, contribFrom_not_mem k cid 1 pre hpre]
  simp only [contribFrom, hcid, eq_self_iff_true, if_true]
  rw [contribFrom_not_mem k cid _ post hpost]
  have h1 : (1 : ℕ) + pre.length = r := by omega
  rw [h1]
  ring

theorem rrfKeywordPass_score (k : ℕ) (l : List RetrievedChunk) (rank : ℕ)
    (sm : List (String × ℚ)) (cm : List (String × RetrievedChunk)) (cid : String) :
    dictGet (rrfKeywordPass k l rank (sm, cm)).1 cid 0
      = dictGet sm cid 0 + contribFrom k cid rank l := by
  induction l generalizing rank sm cm with
  | nil => simp [rrfKeywordPass, contribFrom]
  | cons c rest ih =>
    simp only [rrfKeywordPass, contribFrom]
    rw [ih]
    rw [dictGet_dictSet]
    by_cases h : cid = c.chunk_id
    · have h' : c.chunk_id = cid := h.symm
      simp only [if_pos h, if_pos h']
      subst h
      ring
    · have h' : ¬ c.chunk_id = cid := fun h2 => h h2.symm
      simp only [if_neg h, if_neg h']
      ring

theorem rrfVectorPass_score (k : ℕ) (l : List RetrievedChunk) (rank : ℕ)
    (sm : List (String × ℚ)) (cm : List (String × RetrievedChunk)) (cid : String) :
    dictGet (rrfVectorPass k l rank (sm, cm)).1 cid 0
      = dictGet sm cid 0 + contribFrom k cid rank l := by
  induction l generalizing rank sm cm with
  | nil => simp [rrfVectorPass, contribFrom]
  | cons c rest ih =>
    simp only [rrfVectorPass, contribFrom]
    rw [ih]
    rw [dictGet_dictSet]
    by_cases h : cid = c.chunk_id
    · have h' : c.chunk_id = cid := h.symm
      simp only [if_pos h, if_pos h']
      subst h
      ring
    · have h' : ¬ c.chunk_id = cid := fun h2 => h h2.symm
      simp only [if_neg h, if_neg h']
      ring

theorem rrfKeywordPass_keys (k : ℕ) (l : List RetrievedChunk) (rank : ℕ)
    (sm : List (String × ℚ)) (cm : List (String × RetrievedChunk)) (cid : String) :
    cid ∈ dictKeys (rrfKeywordPass k l rank (sm, cm)).1
      ↔ cid ∈ dictKeys sm ∨ cid ∈ l.map RetrievedChunk.chunk_id := by
  induction l generalizing rank sm cm with
  | nil => simp [rrfKeywordPass]
  | cons c rest ih =>
    simp only [rrfKeywordPass]
    rw [ih, mem_dictKeys_dictSet]
    simp only [List.map_cons, List.mem_cons]
    tauto

theorem rrfVectorPass_keys (k : ℕ) (l : List RetrievedChunk) (rank : ℕ)
    (sm : List (String × ℚ)) (cm : List (String × RetrievedChunk)) (cid : String) :
    cid ∈ dictKeys (rrfVectorPass k l rank (sm, cm)).1
      ↔ cid ∈ dictKeys sm ∨ cid ∈ l.map RetrievedChunk.chunk_id := by
  induction l generalizing rank sm cm with
  | nil => simp [rrfVectorPass]
  | cons c rest ih =>
    simp only [rrfVectorPass]
    rw [ih, mem_dictKeys_dictSet]
    simp only [List.map_cons, List.mem_cons]
    tauto

theorem rrfKeywordPass_nodup (k : ℕ) (l : List RetrievedChunk) (rank : ℕ)
    (sm : List (String × ℚ)) (cm : List (String × RetrievedChunk))
    (h : (dictKeys sm).Nodup) :
    (dictKeys (rrfKeywordPass k l rank (sm, cm)).1).Nodup := by
  induction l generalizing rank sm cm with
  | nil => simpa [rrfKeywordPass]
  | cons c rest ih => exact ih _ _ _ (dictKeys_nodup_dictSet _ _ _ h)

theorem rrfVectorPass_nodup (k : ℕ) (l : List RetrievedChunk) (rank : ℕ)
    (sm : List (String × ℚ)) (cm : List (String × RetrievedChunk))
    (h : (dictKeys sm).Nodup) :
    (dictKeys (rrfVectorPass k l rank (sm, cm)).1).Nodup := by
  induction l generalizing rank sm cm with
  | nil => simpa [rrfVectorPass]
  | cons c rest ih => exact ih _ _ _ (dictKeys_nodup_dictSet _ _ _ h)

theorem rrfKeywordPass_cm_coherent (k : ℕ) (l : List RetrievedChunk) (rank : ℕ)
    (sm : List (String × ℚ)) (cm : List (String × RetrievedChunk))
    (h : ∀ p ∈ cm, (Prod.snd p).chunk_id = p.1) :
    ∀ p ∈ (rrfKeywordPass k l rank (sm, cm)).2, (Prod.snd p).chunk_id = p.1 := by
  induction l generalizing rank sm cm with
  | nil => exact h
  | cons c rest ih =>
    simp only [rrfKeywordPass]
    apply ih
    intro p hp
    cases hfind : dictFind? cm c.chunk_id with
    | none =>
      rw [hfind] at hp
      rcases dictSet_mem _ _ _ _ hp with h' | h'
      · exact h p h'
      · simp [h']
    | some stored =>
      rw [hfind] at hp
      exact h p hp

theorem rrfVectorPass_cm_coherent (k : ℕ) (l : List RetrievedChunk) (rank : ℕ)
    (sm : List (String × ℚ)) (cm : List (String × RetrievedChunk))
    (h : ∀ p ∈ cm, (Prod.snd p).chunk_id = p.1) :
    ∀ p ∈ (rrfVectorPass k l rank (sm, cm)).2, (Prod.snd p).chunk_id = p.1 := by
  induction l generalizing rank sm cm with
  | nil => exact h
  | cons c rest ih =>
    simp only [rrfVectorPass]
    apply ih
    intro p hp
    cases hfind : dictFind? cm c.chunk_id with
    | none =>
      rw [hfind] at hp
      rcases dictSet_mem _ _ _ _ hp with h' | h'
      · exact h p h'
      · simp [h']
    | some stored =>
      rw [hfind] at hp
      dsimp only at hp
      by_cases hcond : stored.document_filename = "" ∧ c.document_filename ≠ ""
      · rw [if_pos hcond] at hp
        rcases dictSet_mem _ _ _ _ hp with h' | h'
        · exact h p h'
        · simp [h']
      · rw [if_neg hcond] at hp
        exact h p hp

theorem rrfKeywordPass_cm_from (k : ℕ) (l : List RetrievedChunk) (rank : ℕ)
    (sm : List (String × ℚ)) (cm : List (String × RetrievedChunk)) :
    ∀ p ∈ (rrfKeywordPass k l rank (sm, cm)).2, p ∈ cm ∨ Prod.snd p ∈ l := by
  induction l generalizing rank sm cm with
  | nil => simp [rrfKeywordPass]
  | cons c rest ih =>
    simp only [rrfKeywordPass]
    intro p hp
    rcases ih _ _ _ p hp with h' | h'
    · cases hfind : dictFind? cm c.chunk_id with
      | none =>
        rw [hfind] at h'
        rcases dictSet_mem _ _ _ _ h' with h2 | h2
        · exact Or.inl h2
        · exact Or.inr (by simp [h2])
      | some stored =>
        rw [hfind] at h'
        exact Or.inl h'
    · exact Or.inr (List.mem_cons_of_mem _ h')

theorem rrfVectorPass_cm_from (k : ℕ) (l : List RetrievedChunk) (rank : ℕ)
    (sm : List (String × ℚ)) (cm : List (String × RetrievedChunk)) :
    ∀ p ∈ (rrfVectorPass k l rank (sm, cm)).2, p ∈ cm ∨ Prod.snd p ∈ l := by
  induction l generalizing rank sm cm with
  | nil => simp [rrfVectorPass]
  | cons c rest ih =>
    simp only [rrfVectorPass]
    intro p hp
    rcases ih _ _ _ p hp with h' | h'
    · cases hfind : dictFind? cm c.chunk_id with
      | none =>
        rw [hfind] at h'
        rcases dictSet_mem _ _ _ _ h' with h2 | h2
        · exact Or.inl h2
        · exact Or.inr (by simp [h2])
      | some stored =>
        rw [hfind] at h'
        dsimp only at h'
        by_cases hcond : stored.document_filename = "" ∧ c.document_filename ≠ ""
        · rw [if_pos hcond] at h'
          rcases dictSet_mem _ _ _ _ h' with h2 | h2
          · exact Or.inl h2
          · exact Or.inr (by simp [h2])
        · rw [if_neg hcond] at h'
          exact Or.inl h'
    · exact Or.inr (List.mem_cons_of_mem _ h')

theorem rrfKeywordPass_keys_sub (k : ℕ) (l : List RetrievedChunk) (rank : ℕ)
    (sm : List (String × ℚ)) (cm : List (String × RetrievedChunk))
    (h : ∀ x, x ∈ dictKeys sm → x ∈ dictKeys cm) :
    ∀ x, x ∈ dictKeys (rrfKeywordPass k l rank (sm, cm)).1
      → x ∈ dictKeys (rrfKeywordPass k l rank (sm, cm)).2 := by
  induction l generalizing rank sm cm with
  | nil => simpa [rrfKeywordPass]
  | cons c rest ih =>
    simp only [rrfKeywordPass]
    apply ih
    intro x hx
    rw [mem_dictKeys_dictSet] at hx
    cases hfind : dictFind? cm c.chunk_id with
    | none =>
      rw [mem_dictKeys_dictSet]
      rcases hx with hx | hx
      · exact Or.inl (h x hx)
      · exact Or.inr hx
    | some stored =>
      rcases hx with hx | hx
      · exact h x hx
      · subst hx
        rw [← dictFind?_isSome_iff, hfind]
        rfl

theorem rrfVectorPass_keys_sub (k : ℕ) (l : List RetrievedChunk) (rank : ℕ)
    (sm : List (String × ℚ)) (cm : List (String × RetrievedChunk))
    (h : ∀ x, x ∈ dictKeys sm → x ∈ dictKeys cm) :
    ∀ x, x ∈ dictKeys (rrfVectorPass k l rank (sm, cm)).1
      → x ∈ dictKeys (rrfVectorPass k l rank (sm, cm)).2 := by
  induction l generalizing rank sm cm with
  | nil => simpa [rrfVectorPass]
  | cons c rest ih =>
    simp only [rrfVectorPass]
    apply ih
    intro x hx
    rw [mem_dictKeys_dictSet] at hx
    cases hfind : dictFind? cm c.chunk_id with
    | none =>
      rw [mem_dictKeys_dictSet]
      rcases hx with hx | hx
      · exact Or.inl (h x hx)
      · exact Or.inr hx
    | some stored =>
      have hmem : c.chunk_id ∈ dictKeys cm := by
        rw [← dictFind?_isSome_iff, hfind]
        rfl
      dsimp only
      by_cases hcond : stored.document_filename = "" ∧ c.document_filename ≠ ""
      · rw [if_pos hcond, mem_dictKeys_dictSet]
        rcases hx with hx | hx
        · exact Or.inl (h x hx)
        · exact Or.inr hx
      · rw [if_neg hcond]
        rcases hx with hx | hx
        · exact h x hx
        · subst hx
          exact hmem

/-- The fused score carried by an output record (0 when unset). -/
def fusedVal (c : RetrievedChunk) : ℚ := c.fused_score.getD 0

theorem sorted_insertionSort_key {α : Type} (key : α → ℚ) (l : List α) :
    List.Sorted (fun a b => key b ≤ key a)
      (List.insertionSort (fun a b => key b ≤ key a) l) := by
  haveI : IsTotal α (fun a b => key b ≤ key a) := ⟨fun a b => le_total (key b) (key a)⟩
  haveI : IsTrans α (fun a b => key b ≤ key a) :=
    ⟨fun a b c h1 h2 => le_trans h2 h1⟩
  exact List.sorted_insertionSort _ _

/-- C1. For every pair of input lists and every (non-negative) RRF constant
`k`, `rrf_merge` assigns each input list 1-based ranks in list order (this is
how `contrib` counts), each output record carries as `fused_score` the sum of
`1/(k+r)` over every rank `r` at which its chunk id appears in either list,
the output ids are exactly the distinct input ids, the output is sorted
descending by fused score, and an id appearing exactly once in each list at
ranks `r1` and `r2` gets `1/(k+r1) + 1/(k+r2)`, strictly greater than either
single contribution. -/
theorem rrf_merge_fusion_correct (kw vec : List RetrievedChunk) (k : ℕ) :
    (∀ c ∈ rrf_merge kw vec k,
        c.fused_score = some (contrib k c.chunk_id kw + contrib k c.chunk_id vec)) ∧
    ((rrf_merge kw vec k).map RetrievedChunk.chunk_id).Nodup ∧
    (∀ cid, cid ∈ (rrf_merge kw vec k).map RetrievedChunk.chunk_id ↔
        cid ∈ kw.map RetrievedChunk.chunk_id ∨ cid ∈ vec.map RetrievedChunk.chunk_id) ∧
    (rrf_merge kw vec k).Pairwise (fun a b => fusedVal b ≤ fusedVal a) ∧
    (∀ c ∈ rrf_merge kw vec k, ∀ r1 r2 : ℕ,
        appearsOnceAt kw c.chunk_id r1 → appearsOnceAt vec c.chunk_id r2 →
        c.fused_score
            = some (1 / ((k : ℚ) + (r1 : ℚ)) + 1 / ((k : ℚ) + (r2 : ℚ))) ∧
        1 / ((k : ℚ) + (r1 : ℚ))
            < 1 / ((k : ℚ) + (r1 : ℚ)) + 1 / ((k : ℚ) + (r2 : ℚ)) ∧
        1 / ((k : ℚ) + (r2 : ℚ))
            < 1 / ((k : ℚ) + (r1 : ℚ)) + 1 / ((k : ℚ) + (r2 : ℚ))) := by
  rcases h1 : rrfKeywordPass k kw 1 ([], []) with ⟨sm1, cm1⟩
  rcases h2 : rrfVectorPass k vec 1 (sm1, cm1) with ⟨sm, cm⟩
  have e1 : (rrfKeywordPass k kw 1 ([], [])).1 = sm1 := by rw [h1]
  have e1c : (rrfKeywordPass k kw 1 ([], [])).2 = cm1 := by rw [h1]
  have e2 : (rrfVectorPass k vec 1 (sm1, cm1)).1 = sm := by rw [h2]
  have e2c : (rrfVectorPass k vec 1 (sm1, cm1)).2 = cm := by rw [h2]
  have hout : rrf_merge kw vec k
      = (List.insertionSort (fun a b => dictGet sm b 0 ≤ dictGet sm a 0)
          (dictKeys sm)).map (fun cid =>
            { (dictFind? cm cid).getD defaultChunk with
                fused_score := some (dictGet sm cid 0) }) := by
    simp only [rrf_merge, h1, h2]
  have hscore : ∀ cid, dictGet sm cid 0 = contrib k cid kw + contrib k cid vec := by
    intro cid
    rw [← e2, rrfVectorPass_score, ← e1, rrfKeywordPass_score]
    simp [dictGet, contrib]
  have hkeys : ∀ cid, cid ∈ dictKeys sm
      ↔ cid ∈ kw.map RetrievedChunk.chunk_id ∨ cid ∈ vec.map RetrievedChunk.chunk_id := by
    intro cid
    rw [← e2, rrfVectorPass_keys, ← e1, rrfKeywordPass_keys]
    simp [dictKeys]
    try tauto
  have hnodup : (dictKeys sm).Nodup := by
    rw [← e2]
    apply rrfVectorPass_nodup
    rw [← e1]
    apply rrfKeywordPass_nodup
    simp [dictKeys]
  have hsub : ∀ x, x ∈ dictKeys sm → x ∈ dictKeys cm := by
    intro x hx
    rw [← e2c]
    apply rrfVectorPass_keys_sub
    · intro y hy
      rw [← e1c]
      apply rrfKeywordPass_keys_sub
      · intro z hz
        simp [dictKeys] at hz
      · rw [e1]
        exact hy
    · rw [e2]
      exact hx
  have hcoh : ∀ p ∈ cm, (Prod.snd p).chunk_id = p.1 := by
    rw [← e2c]
    apply rrfVectorPass_cm_coherent
    rw [← e1c]
    apply rrfKeywordPass_cm_coherent
    intro p hp
    simp at hp
  have hfrom : ∀ p ∈ cm, Prod.snd p ∈ kw ∨ Prod.snd p ∈ vec := by
    intro p hp
    rw [← e2c] at hp
    rcases rrfVectorPass_cm_from k vec 1 sm1 cm1 p hp with hp' | hp'
    · rw [← e1c] at hp'
      rcases rrfKeywordPass_cm_from k kw 1 ([]) ([]) p hp' with hp'' | hp''
      · simp at hp''
      · exact Or.inl hp''
    · exact Or.inr hp'
  have hperm : (List.insertionSort (fun a b => dictGet sm b 0 ≤ dictGet sm a 0)
      (dictKeys sm)).Perm (dictKeys sm) := List.perm_insertionSort _ _
  have hsortedIds : (List.insertionSort (fun a b => dictGet sm b 0 ≤ dictGet sm a 0)
      (dictKeys sm)).Sorted (fun a b => dictGet sm b 0 ≤ dictGet sm a 0) :=
    sorted_insertionSort_key (fun cid => dictGet sm cid 0) (dictKeys sm)
  have hf_id : ∀ cid ∈ List.insertionSort (fun a b => dictGet sm b 0 ≤ dictGet sm a 0)
      (dictKeys sm),
      ((fun cid => { (dictFind? cm cid).getD defaultChunk with
          fused_score := some (dictGet sm cid 0) }) cid).chunk_id = cid := by
    intro cid hcid
    have hmemsm : cid ∈ dictKeys sm := hperm.mem_iff.mp hcid
    have hmemcm : cid ∈ dictKeys cm := hsub cid hmemsm
    have hsome : (dictFind? cm cid).isSome := (dictFind?_isSome_iff cm cid).mpr hmemcm
    obtain ⟨ch, hch⟩ := Option.isSome_iff_exists.mp hsome
    have := hcoh (cid, ch) (dictFind?_mem_values cm cid ch hch)
    simp only [hch, Option.getD_some]
    exact this
  have hmapid : (rrf_merge kw vec k).map RetrievedChunk.chunk_id
      = List.insertionSort (fun a b => dictGet sm b 0 ≤ dictGet sm a 0) (dictKeys sm) := by
    rw [hout, List.map_map]
    have := List.map_congr_left (f := RetrievedChunk.chunk_id ∘
      (fun cid => { (dictFind? cm cid).getD defaultChunk with
          fused_score := some (dictGet sm cid 0) })) (g := id) hf_id
    rw [this, List.map_id]
  have hfused : ∀ c ∈ rrf_merge kw vec k,
      c.fused_score = some (contrib k c.chunk_id kw + contrib k c.chunk_id vec) := by
    intro c hc
    rw [hout] at hc
    obtain ⟨cid, hcid_mem, rfl⟩ := List.mem_map.mp hc
    rw [hf_id cid hcid_mem]
    exact congrArg some (hscore cid)
  refine ⟨hfused, ?_, ?_, ?_, ?_⟩
  · rw [hmapid]
    exact hperm.nodup_iff.mpr hnodup
  · intro cid
    rw [hmapid, hperm.mem_iff]
    exact hkeys cid
  · rw [hout]
    rw [List.pairwise_map]
    exact hsortedIds.imp (fun h => h)
  · intro c hc r1 r2 ha1 ha2
    have hfc := hfused c hc
    rw [contrib_of_appearsOnceAt k _ r1 kw ha1, contrib_of_appearsOnceAt k _ r2 vec ha2]
      at hfc
    obtain ⟨pre1, c1, post1, hl1, hc1, hr1, hp1, hq1⟩ := ha1
    obtain ⟨pre2, c2, post2, hl2, hc2, hr2, hp2, hq2⟩ := ha2
    have hr1' : (1 : ℚ) ≤ (r1 : ℚ) := by
      have : 1 ≤ r1 := by omega
      exact_mod_cast this
    have hr2' : (1 : ℚ) ≤ (r2 : ℚ) := by
      have : 1 ≤ r2 := by omega
      exact_mod_cast this
    have hk0 : (0 : ℚ) ≤ (k : ℚ) := Nat.cast_nonneg k
    have hpos1 : 0 < 1 / ((k : ℚ) + (r1 : ℚ)) := by
      rw [one_div_pos]
      linarith
    have hpos2 : 0 < 1 / ((k : ℚ) + (r2 : ℚ)) := by
      rw [one_div_pos]
      linarith
    exact ⟨hfc, lt_add_of_pos_right _ hpos2, by linarith⟩

/-- A concrete record used by witnesses. -/
def chunkA : RetrievedChunk :=
  { chunk_id := "a", document_id := "d1", document_filename := "a.pdf",
    content := "alpha", page_number := some 1, section_title := none, score := 9/10 }

/-- A second concrete record used by witnesses. -/
def chunkB : RetrievedChunk :=
  { chunk_id := "b", document_id := "d2", document_filename := "b.pdf",
    content := "beta", page_number := none, section_title := some "intro", score := 1/2 }

theorem rrf_merge_fusion_correct_witness :
    ∃ c ∈ rrf_merge [chunkA] [chunkB, chunkA] 60,
      c.chunk_id = "a" ∧
      c.fused_score = some (1 / 61 + 1 / 62) ∧
      (1 : ℚ) / 61 < 1 / 61 + 1 / 62 := by
  obtain ⟨hfused, hnodup, hids, hsorted, hboth⟩ :=
    rrf_merge_fusion_correct [chunkA] [chunkB, chunkA] 60
  have hmem : "a" ∈ (rrf_merge [chunkA] [chunkB, chunkA] 60).map
      RetrievedChunk.chunk_id :=
    (hids "a").mpr (Or.inl (by simp [chunkA]))
  obtain ⟨c, hc, hcid⟩ := List.mem_map.mp hmem
  have ha1 : appearsOnceAt [chunkA] c.chunk_id 1 := by
    rw [hcid]
    exact ⟨[], chunkA, [], rfl, rfl, rfl, by simp, by simp⟩
  have ha2 : appearsOnceAt [chunkB, chunkA] c.chunk_id 2 := by
    rw [hcid]
    refine ⟨[chunkB], chunkA, [], rfl, rfl, rfl, ?_, by simp⟩
    simp [chunkB]
  obtain ⟨hf, hlt1, hlt2⟩ := hboth c hc 1 2 ha1 ha2
  have e61 : ((60 : ℕ) : ℚ) + ((1 : ℕ) : ℚ) = 61 := by norm_num
  have e62 : ((60 : ℕ) : ℚ) + ((2 : ℕ) : ℚ) = 62 := by norm_num
  rw [e61, e62] at hf hlt1
  exact ⟨c, hc, hcid, hf, hlt1⟩

/-- C9. `rrf_merge` is deterministic: identical inputs (same keyword list,
same vector list, same `k`, in the same order) always give identical outputs,
both in record order and in fused scores. The embedding is faithful on this
point because the two sources of nondeterminism the spec rules out are absent
from the source: Python dicts iterate in insertion order (modelled by the
association lists) and the builtin sorted is stable (modelled by the stable
insertion sort), so the function is a pure function of its inputs. -/
theorem rrf_merge_deterministic (kw1 vec1 kw2 vec2 : List RetrievedChunk)
    (k1 k2 : ℕ) (hkw : kw1 = kw2) (hvec : vec1 = vec2) (hk : k1 = k2) :
    rrf_merge kw1 vec1 k1 = rrf_merge kw2 vec2 k2 ∧
    (rrf_merge kw1 vec1 k1).map RetrievedChunk.chunk_id
      = (rrf_merge kw2 vec2 k2).map RetrievedChunk.chunk_id ∧
    (rrf_merge kw1 vec1 k1).map fusedVal
      = (rrf_merge kw2 vec2 k2).map fusedVal := by
  subst hkw
  subst hvec
  subst hk
  exact ⟨rfl, rfl, rfl⟩

theorem rrf_merge_deterministic_witness :
    rrf_merge [chunkA] [chunkB] 60 = rrf_merge [chunkA] [chunkB] 60 ∧
    (rrf_merge [chunkA] [chunkB] 60).map RetrievedChunk.chunk_id
      = (rrf_merge [chunkA] [chunkB] 60).map RetrievedChunk.chunk_id ∧
    (rrf_merge [chunkA] [chunkB] 60).map fusedVal
      = (rrf_merge [chunkA] [chunkB] 60).map fusedVal :=
  rrf_merge_deterministic [chunkA] [chunkB] [chunkA] [chunkB] 60 60 rfl rfl rfl

/-- Field-wise equality of two records on every field except `fused_score`. -/
def eqExceptFused (c c' : RetrievedChunk) : Prop :=
  c.chunk_id = c'.chunk_id ∧ c.document_id = c'.document_id ∧
  c.document_filename = c'.document_filename ∧ c.content = c'.content ∧
  c.page_number = c'.page_number ∧ c.section_title = c'.section_title ∧
  c.score = c'.score ∧ c.rerank_score = c'.rerank_score

/-- C10. Every record produced by `rrf_merge` agrees with some input record on
every field except `fused_score`; the merge writes only `fused_score`. -/
theorem rrf_merge_frame (kw vec : List RetrievedChunk) (k : ℕ) :
    ∀ c ∈ rrf_merge kw vec k, ∃ c', (c' ∈ kw ∨ c' ∈ vec) ∧ eqExceptFused c c' := by
  rcases h1 : rrfKeywordPass k kw 1 ([], []) with ⟨sm1, cm1⟩
  rcases h2 : rrfVectorPass k vec 1 (sm1, cm1) with ⟨sm, cm⟩
  have e1 : (rrfKeywordPass k kw 1 ([], [])).1 = sm1 := by rw [h1]
  have e1c : (rrfKeywordPass k kw 1 ([], [])).2 = cm1 := by rw [h1]
  have e2 : (rrfVectorPass k vec 1 (sm1, cm1)).1 = sm := by rw [h2]
  have e2c : (rrfVectorPass k vec 1 (sm1, cm1)).2 = cm := by rw [h2]
  have hout : rrf_merge kw vec k
      = (List.insertionSort (fun a b => dictGet sm b 0 ≤ dictGet sm a 0)
          (dictKeys sm)).map (fun cid =>
            { (dictFind? cm cid).getD defaultChunk with
                fused_score := some (dictGet sm cid 0) }) := by
    simp only [rrf_merge, h1, h2]
  have hsub : ∀ x, x ∈ dictKeys sm → x ∈ dictKeys cm := by
    intro x hx
    rw [← e2c]
    apply rrfVectorPass_keys_sub
    · intro y hy
      rw [← e1c]
      apply rrfKeywordPass_keys_sub
      · intro z hz
        simp [dictKeys] at hz
      · rw [e1]
        exact hy
    · rw [e2]
      exact hx
  have hfrom : ∀ p ∈ cm, Prod.snd p ∈ kw ∨ Prod.snd p ∈ vec := by
    intro p hp
    rw [← e2c] at hp
    rcases rrfVectorPass_cm_from k vec 1 sm1 cm1 p hp with hp' | hp'
    · rw [← e1c] at hp'
      rcases rrfKeywordPass_cm_from k kw 1 ([]) ([]) p hp' with hp'' | hp''
      · simp at hp''
      · exact Or.inl hp''
    · exact Or.inr hp'
  intro c hc
  rw [hout] at hc
  obtain ⟨cid, hcid_mem, rfl⟩ := List.mem_map.mp hc
  have hperm : (List.insertionSort (fun a b => dictGet sm b 0 ≤ dictGet sm a 0)
      (dictKeys sm)).Perm (dictKeys sm) := List.perm_insertionSort _ _
  have hmemsm : cid ∈ dictKeys sm := hperm.mem_iff.mp hcid_mem
  have hmemcm : cid ∈ dictKeys cm := hsub cid hmemsm
  have hsome : (dictFind? cm cid).isSome := (dictFind?_isSome_iff cm cid).mpr hmemcm
  obtain ⟨ch, hch⟩ := Option.isSome_iff_exists.mp hsome
  refine ⟨ch, hfrom (cid, ch) (dictFind?_mem_values cm cid ch hch), ?_⟩
  simp only [hch, Option.getD_some]
  exact ⟨rfl, rfl, rfl, rfl, rfl, rfl, rfl, rfl⟩

theorem rrf_merge_frame_witness :
    ∃ c', (c' ∈ [chunkA] ∨ c' ∈ ([] : List RetrievedChunk)) ∧
      eqExceptFused { chunkA with fused_score := some (1 / 61) } c' := by
  apply rrf_merge_frame [chunkA] [] 60
  have hcomp : rrf_merge [chunkA] [] 60 = [{ chunkA with fused_score := some (1 / 61) }] := by
    norm_num [rrf_merge, rrfKeywordPass, rrfVectorPass, dictSet, dictGet, dictFind?,
      dictKeys, List.insertionSort, List.orderedInsert, defaultChunk, chunkA]
  rw [hcomp]
  exact List.mem_singleton.mpr rfl

/-- The error type of the reranker layer: embedding of `RerankProviderError`
from `app/core/retrieval/reranker.py`. -/
inductive RerankError where
  | providerError : String → RerankError
deriving DecidableEq, Repr

/-- A reranker as the orchestrator sees it: from a query, a candidate list and
`topn` it either returns a reordered list or raises `RerankProviderError`
(embedding of the `BaseReranker` protocol; other exception types are not
raised by the two implementations and are not modelled). -/
def Reranker : Type :=
  String → List RetrievedChunk → ℕ → Except RerankError (List RetrievedChunk)

/-- The settings consumed by `retrieve_context` (`app/config.py` fields used
in `app/core/retrieval/orchestrator.py`). -/
structure OrchSettings where
  rerank_enabled : Bool
  hybrid_rrf_k : ℕ
  rerank_max_candidates : ℕ
  rerank_final_topn : ℕ
deriving Repr

/-- Embedding of `retrieve_context` from `app/core/retrieval/orchestrator.py`,
steps 3 to the end. The embedding and searches of steps 1 and 2 are external
calls, so the two result lists are parameters; `primary` and `fallback` stand
for `get_reranker()` and `get_fallback_reranker()`. The Python try/except on
`RerankProviderError` is the explicit handling of the `Except.error` branches;
an error the function does not catch would appear as an `Except.error` result. -/
def retrieve_context (s : OrchSettings) (query : String)
    (keyword_results vector_results : List RetrievedChunk)
    (primary fallback : Option Reranker) :
    Except RerankError (List RetrievedChunk) :=
  let merged := rrf_merge keyword_results vector_results s.hybrid_rrf_k
  let candidates := merged.take s.rerank_max_candidates
  if s.rerank_enabled = false ∨ candidates = [] then
    Except.ok (candidates.take s.rerank_final_topn)
  else
    match primary with
    | none => Except.ok (candidates.take s.rerank_final_topn)
    | some r =>
      match r query candidates s.rerank_final_topn with
      | Except.ok reranked => Except.ok reranked
      | Except.error _ =>
        match fallback with
        | none => Except.ok (candidates.take s.rerank_final_topn)
        | some f =>
          match f query candidates s.rerank_final_topn with
          | Except.ok reranked => Except.ok reranked
          | Except.error _ => Except.ok (candidates.take s.rerank_final_topn)

/-- C2. With reranking enabled and a non-empty candidate list, a primary
`RerankProviderError` leads to the fallback being consulted: a successful
fallback decides the output, a failing or missing fallback degrades to the
first `rerank_final_topn` records of the RRF-ordered candidates; and in
every configuration the call returns a value, never a `RerankProviderError`. -/
theorem retrieve_context_rerank_fallback (s : OrchSettings) (query : String)
    (kw vec : List RetrievedChunk) (p : Reranker) (fb : Option Reranker)
    (e : RerankError)
    (henabled : s.rerank_enabled = true)
    (hne : (rrf_merge kw vec s.hybrid_rrf_k).take s.rerank_max_candidates ≠ [])
    (herr : p query ((rrf_merge kw vec s.hybrid_rrf_k).take s.rerank_max_candidates)
        s.rerank_final_topn = Except.error e) :
    (∀ f l, fb = some f →
        f query ((rrf_merge kw vec s.hybrid_rrf_k).take s.rerank_max_candidates)
          s.rerank_final_topn = Except.ok l →
        retrieve_context s query kw vec (some p) fb = Except.ok l) ∧
    (∀ f e2, fb = some f →
        f query ((rrf_merge kw vec s.hybrid_rrf_k).take s.rerank_max_candidates)
          s.rerank_final_topn = Except.error e2 →
        retrieve_context s query kw vec (some p) fb
          = Except.ok (((rrf_merge kw vec s.hybrid_rrf_k).take
              s.rerank_max_candidates).take s.rerank_final_topn)) ∧
    (fb = none →
        retrieve_context s query kw vec (some p) fb
          = Except.ok (((rrf_merge kw vec s.hybrid_rrf_k).take
              s.rerank_max_candidates).take s.rerank_final_topn)) ∧
    (∀ (s' : OrchSettings) (q' : String) (kw' vec' : List RetrievedChunk)
        (p' fb' : Option Reranker), ∃ l,
        retrieve_context s' q' kw' vec' p' fb' = Except.ok l) := by
  have hcond : ¬ (s.rerank_enabled = false ∨
      (rrf_merge kw vec s.hybrid_rrf_k).take s.rerank_max_candidates = []) := by
    rw [henabled]
    simp [hne]
  refine ⟨?_, ?_, ?_, ?_⟩
  · intro f l hfb hok
    subst hfb
    simp only [retrieve_context, if_neg hcond, herr, hok]
  · intro f e2 hfb herr2
    subst hfb
    simp only [retrieve_context, if_neg hcond, herr, herr2]
  · intro hfb
    subst hfb
    simp only [retrieve_context, if_neg hcond, herr]
  · intro s' q' kw' vec' p' fb'
    unfold retrieve_context
    dsimp only
    repeat' split
    all_goals exact ⟨_, rfl⟩

/-- A toy provider that succeeds, used by witnesses. -/
def okReranker : Reranker := fun _ cands topn => Except.ok (cands.take topn)

/-- A toy provider that always raises `RerankProviderError`, used by witnesses. -/
def failReranker : Reranker := fun _ _ _ =>
  Except.error (RerankError.providerError "boom")

theorem retrieve_context_rerank_fallback_witness :
    retrieve_context ⟨true, 60, 5, 2⟩ "q" [chunkA] [chunkB] (some failReranker) none
      = Except.ok (((rrf_merge [chunkA] [chunkB] 60).take 5).take 2) := by
  have hcomp : rrf_merge [chunkA] [chunkB] 60
      = [{ chunkA with fused_score := some (1 / 61) },
         { chunkB with fused_score := some (1 / 61) }] := by
    norm_num [rrf_merge, rrfKeywordPass, rrfVectorPass, dictSet, dictGet, dictFind?,
      dictKeys, List.insertionSort, List.orderedInsert, defaultChunk, chunkA, chunkB,
      (show ("a" : String) ≠ "b" by decide), (show ("b" : String) ≠ "a" by decide)]
  have h := retrieve_context_rerank_fallback ⟨true, 60, 5, 2⟩ "q" [chunkA] [chunkB]
      failReranker none (RerankError.providerError "boom") rfl
      (by dsimp only; rw [hcomp]; simp) rfl
  exact h.2.2.1 rfl

/-- The sort key of `sorted(candidates, key=lambda c: c.rerank_score or 0,
reverse=True)`: Python `or 0` turns `None` (and the float 0.0, unchanged in
value) into 0, while minus infinity and every other float are truthy and kept. -/
def rerankKey (c : RetrievedChunk) : RScore :=
  match c.rerank_score with
  | none => RScore.val 0
  | some s => s

/-- The stable descending sort by rerank score shared by both rerankers
(reranker_hf.py line 75, reranker_mistral.py line 104). -/
def sortByRerankDesc (l : List RetrievedChunk) : List RetrievedChunk :=
  List.insertionSort (fun a b => RScore.le (rerankKey b) (rerankKey a)) l

theorem sortByRerankDesc_perm (l : List RetrievedChunk) :
    (sortByRerankDesc l).Perm l := List.perm_insertionSort _ _

theorem sortByRerankDesc_sorted (l : List RetrievedChunk) :
    (sortByRerankDesc l).Pairwise (fun a b => RScore.le (rerankKey b) (rerankKey a)) := by
  haveI : IsTotal RetrievedChunk (fun a b => RScore.le (rerankKey b) (rerankKey a)) :=
    ⟨fun a b => rscore_le_total (rerankKey b) (rerankKey a)⟩
  haveI : IsTrans RetrievedChunk (fun a b => RScore.le (rerankKey b) (rerankKey a)) :=
    ⟨fun a b c h1 h2 => rscore_le_trans h2 h1⟩
  exact List.sorted_insertionSort _ _

/-- The Python dict `score_map` built in `MistralReranker.rerank`
(reranker_mistral.py lines 94-98); on a duplicated chunk id the last
score wins, as in the Python dict assignment. -/
def mistralScoreMap (ranking : List (String × ℚ)) : List (String × ℚ) :=
  ranking.foldl (fun m item => dictSet m item.1 item.2) []

/-- The rerank score assigned to a chunk id: the parsed score when present,
minus infinity otherwise (`score_map.get(c.chunk_id, -float("inf"))`). -/
def mistralScoreFor (ranking : List (String × ℚ)) (cid : String) : RScore :=
  match dictFind? (mistralScoreMap ranking) cid with
  | some s => RScore.val s
  | none => RScore.negInf

/-- The score-assignment loop of `MistralReranker.rerank` (lines 101-102). -/
def mistralAssign (candidates : List RetrievedChunk)
    (ranking : List (String × ℚ)) : List RetrievedChunk :=
  candidates.map (fun c =>
    { c with rerank_score := some (mistralScoreFor ranking c.chunk_id) })

/-- The sorted candidate list of `MistralReranker.rerank` before the final
truncation (line 104). -/
def mistralRerankSorted (candidates : List RetrievedChunk)
    (ranking : List (String × ℚ)) : List RetrievedChunk :=
  sortByRerankDesc (mistralAssign candidates ranking)

/-- The list returned by a successful `MistralReranker.rerank` call with the
given parsed ranking (line 106: `return reranked[:topn]`). -/
def mistralRerank (candidates : List RetrievedChunk)
    (ranking : List (String × ℚ)) (topn : ℕ) : List RetrievedChunk :=
  (mistralRerankSorted candidates ranking).take topn

theorem foldl_dictSet_keys (ranking : List (String × ℚ))
    (m : List (String × ℚ)) (cid : String)
    (h : cid ∈ dictKeys (ranking.foldl (fun m item => dictSet m item.1 item.2) m)) :
    cid ∈ dictKeys m ∨ cid ∈ ranking.map Prod.fst := by
  induction ranking generalizing m with
  | nil => exact Or.inl h
  | cons item rest ih =>
    simp only [List.foldl_cons] at h
    rcases ih _ h with h' | h'
    · rcases (mem_dictKeys_dictSet m item.1 cid item.2).mp h' with h2 | h2
      · exact Or.inl h2
      · subst h2
        exact Or.inr (by simp)
    · exact Or.inr (List.mem_cons_of_mem _ h')

theorem foldl_dictSet_keys_of_mem (ranking : List (String × ℚ))
    (m : List (String × ℚ)) (cid : String)
    (h : cid ∈ dictKeys m ∨ cid ∈ ranking.map Prod.fst) :
    cid ∈ dictKeys (ranking.foldl (fun m item => dictSet m item.1 item.2) m) := by
  induction ranking generalizing m with
  | nil =>
    rcases h with h | h
    · exact h
    · simp at h
  | cons item rest ih =>
    simp only [List.foldl_cons]
    apply ih
    rcases h with h | h
    · exact Or.inl (mem_dictKeys_of_dictSet m item.1 cid item.2 h)
    · simp only [List.map_cons, List.mem_cons] at h
      rcases h with h | h
      · subst h
        exact Or.inl ((mem_dictKeys_dictSet m item.1 item.1 item.2).mpr (Or.inr rfl))
      · exact Or.inr h

theorem mistralScoreFor_of_not_mem (ranking : List (String × ℚ)) (cid : String)
    (h : cid ∉ ranking.map Prod.fst) : mistralScoreFor ranking cid = RScore.negInf := by
  unfold mistralScoreFor
  cases hfind : dictFind? (mistralScoreMap ranking) cid with
  | none => rfl
  | some s =>
    exfalso
    apply h
    have hsome : (dictFind? (mistralScoreMap ranking) cid).isSome := by
      rw [hfind]
      rfl
    have hmem := (dictFind?_isSome_iff _ _).mp hsome
    rcases foldl_dictSet_keys ranking [] cid hmem with h' | h'
    · simp [dictKeys] at h'
    · exact h'

theorem mistralScoreFor_of_mem (ranking : List (String × ℚ)) (cid : String)
    (h : cid ∈ ranking.map Prod.fst) : ∃ s, mistralScoreFor ranking cid = RScore.val s := by
  have hmem : cid ∈ dictKeys (mistralScoreMap ranking) :=
    foldl_dictSet_keys_of_mem ranking [] cid (Or.inr h)
  obtain ⟨v, hv⟩ := Option.isSome_iff_exists.mp ((dictFind?_isSome_iff _ _).mpr hmem)
  exact ⟨v, by unfold mistralScoreFor; rw [hv]⟩

theorem mistralAssign_mem_form (candidates : List RetrievedChunk)
    (ranking : List (String × ℚ)) (c : RetrievedChunk)
    (h : c ∈ mistralAssign candidates ranking) :
    c.rerank_score = some (mistralScoreFor ranking c.chunk_id) := by
  obtain ⟨c0, _, rfl⟩ := List.mem_map.mp h
  rfl

theorem mistralRerankSorted_perm (candidates : List RetrievedChunk)
    (ranking : List (String × ℚ)) :
    (mistralRerankSorted candidates ranking).Perm (mistralAssign candidates ranking) :=
  sortByRerankDesc_perm _

/-- C4 (amended). In a successful `MistralReranker.rerank` call, every
candidate whose chunk id is absent from the parsed ranking is assigned
rerank score minus infinity and is ordered after every candidate that
received a parsed score; it is retained in the sorted candidate list, and
the returned value is exactly the first `topn` records of that sorted list,
so such a candidate is dropped exactly when it falls beyond `topn`. -/
theorem mistral_rerank_missing_id (candidates : List RetrievedChunk)
    (ranking : List (String × ℚ)) (topn : ℕ) :
    (mistralRerankSorted candidates ranking).Perm (mistralAssign candidates ranking) ∧
    (∀ c ∈ mistralRerankSorted candidates ranking,
        c.chunk_id ∉ ranking.map Prod.fst → c.rerank_score = some RScore.negInf) ∧
    (mistralRerankSorted candidates ranking).Pairwise
      (fun a b => a.chunk_id ∉ ranking.map Prod.fst → b.chunk_id ∉ ranking.map Prod.fst) ∧
    mistralRerank candidates ranking topn
      = (mistralRerankSorted candidates ranking).take topn := by
  have hperm := mistralRerankSorted_perm candidates ranking
  have hform : ∀ c ∈ mistralRerankSorted candidates ranking,
      c.rerank_score = some (mistralScoreFor ranking c.chunk_id) := by
    intro c hc
    exact mistralAssign_mem_form candidates ranking c (hperm.mem_iff.mp hc)
  have hmiss : ∀ c ∈ mistralRerankSorted candidates ranking,
      c.chunk_id ∉ ranking.map Prod.fst → c.rerank_score = some RScore.negInf := by
    intro c hc habs
    rw [hform c hc, mistralScoreFor_of_not_mem ranking c.chunk_id habs]
  refine ⟨hperm, hmiss, ?_, rfl⟩
  have hsorted := sortByRerankDesc_sorted (mistralAssign candidates ranking)
  apply List.Pairwise.imp_of_mem ?_ hsorted
  intro a b ha hb hle habs
  have hka : rerankKey a = RScore.negInf := by
    unfold rerankKey
    rw [hmiss a ha habs]
  by_contra hbmem
  obtain ⟨s, hs⟩ := mistralScoreFor_of_mem ranking b.chunk_id hbmem
  have hkb : rerankKey b = RScore.val s := by
    unfold rerankKey
    rw [hform b hb, hs]
  rw [hka, hkb] at hle
  exact hle

theorem mistral_sorted_example :
    mistralRerankSorted [chunkA, chunkB] [("a", 9 / 10)]
      = [{ chunkA with rerank_score := some (RScore.val (9 / 10)) },
         { chunkB with rerank_score := some RScore.negInf }] := by
  have h1 : mistralAssign [chunkA, chunkB] [("a", 9 / 10)]
      = [{ chunkA with rerank_score := some (RScore.val (9 / 10)) },
         { chunkB with rerank_score := some RScore.negInf }] := by
    norm_num [mistralAssign, mistralScoreFor, mistralScoreMap, List.foldl_cons,
      List.foldl_nil, dictSet, dictFind?, chunkA, chunkB,
      (show ("a" : String) ≠ "b" by decide), (show ("b" : String) ≠ "a" by decide)]
  unfold mistralRerankSorted
  rw [h1]
  simp [sortByRerankDesc, List.insertionSort, List.orderedInsert, rerankKey, RScore.le]

theorem mistral_rerank_missing_id_witness :
    ∃ c ∈ mistralRerankSorted [chunkA, chunkB] [("a", 9 / 10)],
      c.chunk_id = "b" ∧ c.rerank_score = some RScore.negInf := by
  obtain ⟨hperm, hmiss, hpair, htrunc⟩ :=
    mistral_rerank_missing_id [chunkA, chunkB] [("a", 9 / 10)] 2
  refine ⟨{ chunkB with rerank_score := some RScore.negInf }, ?_, rfl, ?_⟩
  · rw [mistral_sorted_example]
    exact List.mem_cons_of_mem _ (List.mem_singleton.mpr rfl)
  · apply hmiss
    · rw [mistral_sorted_example]
      exact List.mem_cons_of_mem _ (List.mem_singleton.mpr rfl)
    · decide

/-- C4, counterexample to the claim as stated: with two candidates, a parsed
ranking naming only the first one, and `topn = 1`, the candidate whose id is
absent from the ranking is sorted last and then cut off by the `[:topn]`
truncation, so it is NOT retained in the returned list. -/
theorem mistral_rerank_missing_id_counterexample :
    chunkB ∈ [chunkA, chunkB] ∧
    chunkB.chunk_id ∉ ([("a", (9 : ℚ) / 10)]).map Prod.fst ∧
    ∀ c ∈ mistralRerank [chunkA, chunkB] [("a", 9 / 10)] 1, c.chunk_id ≠ "b" := by
  refine ⟨by simp, by decide, ?_⟩
  intro c hc
  unfold mistralRerank at hc
  rw [mistral_sorted_example] at hc
  have hce : c = { chunkA with rerank_score := some (RScore.val (9 / 10)) } := by
    simpa using hc
  subst hce
  decide

/-- One element of the parsed TEI rerank response: a JSON object whose
`index` field may be missing (`item.get("index")` is then `None`) and whose
`score` field defaults to 0.0 (`float(item.get("score", 0.0))`). -/
structure HFItem where
  index : Option Int
  score : ℚ
deriving DecidableEq, Repr

/-- In-place update of the element at position `i` (no-op out of range),
modelling the Python assignment `candidates[idx].rerank_score = score`. -/
def modifyAt (f : RetrievedChunk → RetrievedChunk) :
    ℕ → List RetrievedChunk → List RetrievedChunk
  | _, [] => []
  | 0, c :: rest => f c :: rest
  | n + 1, c :: rest => c :: modifyAt f n rest

/-- The score-mapping loop of `HFEndpointReranker.rerank` (reranker_hf.py
lines 68-72): every item with a present, in-range index writes its score
onto the candidate at that position of the submitted candidate list. -/
def hfApplyScores (candidates : List RetrievedChunk) (data : List HFItem) :
    List RetrievedChunk :=
  data.foldl (fun cs item =>
    match item.index with
    | none => cs
    | some idx =>
        if 0 ≤ idx ∧ idx < (cs.length : ℤ) then
          modifyAt (fun c => { c with rerank_score := some (RScore.val item.score) })
            idx.toNat cs
        else cs) candidates

/-- The last score the response writes onto position `i` of a candidate list
of length `n` (later items overwrite earlier ones, as in the Python loop). -/
def hfLastScore (data : List HFItem) (n : ℕ) (i : ℕ) : Option ℚ :=
  data.foldl (fun acc item =>
    match item.index with
    | none => acc
    | some idx =>
        if (0 ≤ idx ∧ idx < (n : ℤ)) ∧ idx.toNat = i then some item.score else acc) none

/-- The list returned by a successful `HFEndpointReranker.rerank` attempt on
a well-formed list response (lines 74-81): candidates with the freshly
assigned scores, stably sorted descending, truncated to `topn`. -/
def hfRerankResult (candidates : List RetrievedChunk) (data : List HFItem)
    (topn : ℕ) : List RetrievedChunk :=
  (sortByRerankDesc (hfApplyScores candidates data)).take topn

theorem modifyAt_length (f : RetrievedChunk → RetrievedChunk) (n : ℕ)
    (l : List RetrievedChunk) : (modifyAt f n l).length = l.length := by
  induction l generalizing n with
  | nil => cases n <;> rfl
  | cons c rest ih =>
    cases n with
    | zero => rfl
    | succ m => simp [modifyAt, ih]

theorem modifyAt_get? (f : RetrievedChunk → RetrievedChunk) (n : ℕ)
    (l : List RetrievedChunk) (i : ℕ) :
    (modifyAt f n l).get? i = if i = n then (l.get? i).map f else l.get? i := by
  induction l generalizing n i with
  | nil => simp [modifyAt]
  | cons c rest ih =>
    cases n with
    | zero =>
      cases i with
      | zero => simp [modifyAt]
      | succ j => simp [modifyAt]
    | succ m =>
      cases i with
      | zero => simp [modifyAt]
      | succ j =>
        simp only [modifyAt, List.get?_cons_succ, ih]
        by_cases h : j = m
        · simp [h]
        · simp [h, fun hc => h (Nat.succ_injective hc)]

theorem hfApplyScores_length (candidates : List RetrievedChunk)
    (data : List HFItem) :
    (hfApplyScores candidates data).length = candidates.length := by
  induction data using List.reverseRecOn with
  | nil => rfl
  | append_singleton rest item ih =>
    unfold hfApplyScores
    rw [List.foldl_append]
    show (match item.index with
      | none => hfApplyScores candidates rest
      | some idx =>
          if 0 ≤ idx ∧ idx < ((hfApplyScores candidates rest).length : ℤ) then
            modifyAt (fun c => { c with rerank_score := some (RScore.val item.score) })
              idx.toNat (hfApplyScores candidates rest)
          else hfApplyScores candidates rest).length = candidates.length
    cases item.index with
    | none => exact ih
    | some idx =>
      by_cases h : 0 ≤ idx ∧ idx < ((hfApplyScores candidates rest).length : ℤ)
      · simp only [if_pos h]
        rw [modifyAt_length]
        exact ih
      · simp only [if_neg h]
        exact ih

theorem hfApplyScores_get? (candidates : List RetrievedChunk) (data : List HFItem)
    (i : ℕ) :
    (hfApplyScores candidates data).get? i
      = match hfLastScore data candidates.length i with
        | some s => (candidates.get? i).map
            (fun c => { c with rerank_score := some (RScore.val s) })
        | none => candidates.get? i := by
  induction data using List.reverseRecOn with
  | nil => rfl
  | append_singleton rest item ih =>
    have hlen := hfApplyScores_length candidates rest
    unfold hfApplyScores hfLastScore
    rw [List.foldl_append, List.foldl_append]
    show (match item.index with
      | none => hfApplyScores candidates rest
      | some idx =>
          if 0 ≤ idx ∧ idx < ((hfApplyScores candidates rest).length : ℤ) then
            modifyAt (fun c => { c with rerank_score := some (RScore.val item.score) })
              idx.toNat (hfApplyScores candidates rest)
          else hfApplyScores candidates rest).get? i
      = match (match item.index with
          | none => hfLastScore rest candidates.length i
          | some idx =>
              if (0 ≤ idx ∧ idx < (candidates.length : ℤ)) ∧ idx.toNat = i then
                some item.score
              else hfLastScore rest candidates.length i) with
        | some s => (candidates.get? i).map
            (fun c => { c with rerank_score := some (RScore.val s) })
        | none => candidates.get? i
    cases item.index with
    | none => exact ih
    | some idx =>
      rw [hlen]
      dsimp only
      by_cases hrange : 0 ≤ idx ∧ idx < (candidates.length : ℤ)
      · rw [if_pos hrange]
        rw [modifyAt_get?]
        by_cases hi : i = idx.toNat
        · rw [if_pos hi]
          have hcond : (0 ≤ idx ∧ idx < (candidates.length : ℤ)) ∧ idx.toNat = i :=
            ⟨hrange, hi.symm⟩
          rw [if_pos hcond]
          rw [ih]
          cases hfLastScore rest candidates.length i with
          | none => rfl
          | some s =>
            dsimp only
            rw [Option.map_map]
            rfl
        · rw [if_neg hi]
          have hcond : ¬ ((0 ≤ idx ∧ idx < (candidates.length : ℤ)) ∧ idx.toNat = i) := by
            intro hc
            exact hi hc.2.symm
          rw [if_neg hcond]
          exact ih
      · rw [if_neg hrange]
        have hcond : ¬ ((0 ≤ idx ∧ idx < (candidates.length : ℤ)) ∧ idx.toNat = i) := by
          intro hc
          exact hrange hc.1
        rw [if_neg hcond]
        exact ih

/-- C7. For every well-formed list response, the endpoint reranker writes each
returned score onto the candidate at that position of the originally
submitted candidate list (for duplicated indices the last write wins: the
characterization is through `hfLastScore`), leaves every other field and
every unaddressed candidate unchanged, and returns the scored candidates
stably sorted descending by rerank score, truncated to `topn`. -/
theorem hf_rerank_maps_to_original_index (candidates : List RetrievedChunk)
    (data : List HFItem) (topn : ℕ) :
    (hfApplyScores candidates data).length = candidates.length ∧
    (∀ i s, hfLastScore data candidates.length i = some s →
        (hfApplyScores candidates data).get? i
          = (candidates.get? i).map
              (fun c => { c with rerank_score := some (RScore.val s) })) ∧
    (∀ i, hfLastScore data candidates.length i = none →
        (hfApplyScores candidates data).get? i = candidates.get? i) ∧
    hfRerankResult candidates data topn
      = (sortByRerankDesc (hfApplyScores candidates data)).take topn ∧
    (sortByRerankDesc (hfApplyScores candidates data)).Pairwise
      (fun a b => RScore.le (rerankKey b) (rerankKey a)) ∧
    (sortByRerankDesc (hfApplyScores candidates data)).Perm
      (hfApplyScores candidates data) := by
  refine ⟨hfApplyScores_length candidates data, ?_, ?_, rfl,
    sortByRerankDesc_sorted _, sortByRerankDesc_perm _⟩
  · intro i s hs
    rw [hfApplyScores_get? candidates data i, hs]
  · intro i hs
    rw [hfApplyScores_get? candidates data i, hs]

theorem hf_rerank_maps_to_original_index_witness :
    (hfApplyScores [chunkA, chunkB] [⟨some 1, 2⟩, ⟨some 0, 1⟩]).get? 1
      = some { chunkB with rerank_score := some (RScore.val 2) } := by
  obtain ⟨hlen, hsome, hnone, htrunc, hsorted, hperm⟩ :=
    hf_rerank_maps_to_original_index [chunkA, chunkB] [⟨some 1, 2⟩, ⟨some 0, 1⟩] 2
  have h := hsome 1 2 (by norm_num [hfLastScore, List.foldl_cons, List.foldl_nil])
  rw [h]
  rfl

/-- A parsed TEI response body: either a JSON array of items (the only shape
the code accepts) or a JSON value of any other shape. -/
inductive HFResponse where
  | list : List HFItem → HFResponse
  | notList : HFResponse

/-- One transport interaction per attempt number: either a retryable failure
(httpx.HTTPError, httpx.TimeoutException, KeyError or ValueError) or a parsed
response body. The request payload is the same on every attempt, so it is not
a parameter. -/
def HFTransport : Type := ℕ → Except Unit HFResponse

/-- The retry loop of `HFEndpointReranker.rerank` (reranker_hf.py lines
53-87), instrumented with the number of HTTP POST requests performed (the
second component). `remaining` counts the attempts left of `1 + max_retries`;
a non-list response raises without retrying because `RerankProviderError` is
not among the exception types the loop catches. -/
def hfAttemptLoop (candidates : List RetrievedChunk) (topn : ℕ)
    (transport : HFTransport) :
    ℕ → ℕ → ℕ → Except RerankError (List RetrievedChunk) × ℕ
  | _, 0, calls =>
      (Except.error (RerankError.providerError "HF reranker failed after retries"), calls)
  | attempt, remaining + 1, calls =>
      match transport attempt with
      | Except.error _ =>
          hfAttemptLoop candidates topn transport (attempt + 1) remaining (calls + 1)
      | Except.ok HFResponse.notList =>
          (Except.error (RerankError.providerError "Invalid HF rerank response"), calls + 1)
      | Except.ok (HFResponse.list data) =>
          (Except.ok (hfRerankResult candidates data topn), calls + 1)

/-- Python `"...".rstrip("/")`: drop every trailing slash. -/
def rstripSlash (s : String) : String :=
  String.mk ((s.data.reverse.dropWhile (fun c => c = '/')).reverse)

/-- Embedding of `HFEndpointReranker.rerank` (reranker_hf.py lines 27-87):
the configured URL is stripped of trailing slashes, an empty result raises
before the retry loop ever runs; the second component of the result counts
the HTTP requests performed. -/
def hfRerank (hf_rerank_url : String) (max_retries : ℕ) (transport : HFTransport)
    (candidates : List RetrievedChunk) (topn : ℕ) :
    Except RerankError (List RetrievedChunk) × ℕ :=
  let base_url := rstripSlash hf_rerank_url
  if base_url = "" then
    (Except.error (RerankError.providerError "HF_RERANK_URL is not configured"), 0)
  else
    hfAttemptLoop candidates topn transport 0 (1 + max_retries) 0

/-- C8. With an empty (unconfigured) base URL, `HFEndpointReranker.rerank`
raises `RerankProviderError` immediately: zero HTTP requests are performed,
so there is no retry either. -/
theorem hf_rerank_unconfigured_url (url : String) (max_retries : ℕ)
    (transport : HFTransport) (candidates : List RetrievedChunk) (topn : ℕ)
    (h : url = "") :
    hfRerank url max_retries transport candidates topn
      = (Except.error (RerankError.providerError "HF_RERANK_URL is not configured"), 0) := by
  subst h
  rfl

theorem hf_rerank_unconfigured_url_witness :
    hfRerank "" 2 (fun _ => Except.error ()) [chunkA] 1
      = (Except.error (RerankError.providerError "HF_RERANK_URL is not configured"), 0) :=
  hf_rerank_unconfigured_url "" 2 (fun _ => Except.error ()) [chunkA] 1 rfl

/-- Python `str.strip()` (ASCII whitespace model). -/
def pyStrip (s : String) : String :=
  String.mk (((s.data.dropWhile Char.isWhitespace).reverse.dropWhile
    Char.isWhitespace).reverse)

/-- A word character of the regex class `\w` (ASCII model). -/
def isWordChar (c : Char) : Bool := c.isAlphanum || c = '_'

/-- Python `str.lower()` (ASCII model). -/
def lowerStr (s : String) : String := String.mk (s.data.map Char.toLower)

/-- The maximal runs of word characters of a character list, in order: the
model of `re.findall(r"\w+", text)`. The second argument accumulates the
current run, reversed. -/
def findWords : List Char → List Char → List String
  | [], [] => []
  | [], acc => [String.mk acc.reverse]
  | c :: rest, acc =>
      if isWordChar c then findWords rest (c :: acc)
      else
        match acc with
        | [] => findWords rest []
        | _ => String.mk acc.reverse :: findWords rest []

/-- Embedding of `_build_or_tsquery` (keyword_retriever.py lines 15-28):
the word tokens of the lowercased query, then the allowlist filter
`re.match(r"^[\w]+$", w)`; the resulting word list stands for the
OR-combined tsquery `w1 | w2 | ...`. -/
def buildOrTsquery (query : String) : List String :=
  let words := findWords (lowerStr query).data []
  words.filter (fun w => !w.data.isEmpty && w.data.all isWordChar)

/-- A row of the `chunks` table as seen by the keyword-search SQL, with the
denormalized tenant and collection columns and the precomputed tsvector
kept as its lexeme list. -/
structure ChunkRow where
  id : String
  document_id : String
  tenant_id : String
  collection_id : String
  content : String
  content_tsv : List String
  page_number : Option Int
  section_title : Option String
deriving DecidableEq, Repr

/-- The `ts_rank_cd` scoring function of Postgres, an external collaborator,
as a parameter: from the lexemes of a row and the query words to a rank. -/
def RankFn : Type := List String → List String → ℚ

/-- Semantics of `content_tsv @@ to_tsquery(simple, w1 | w2 | ...)`: some
query word is among the lexemes (the `simple` config lowercases and does not
stem; the query words are already lowercased). -/
def rowMatchesQuery (words : List String) (r : ChunkRow) : Bool :=
  words.any (fun w => r.content_tsv.contains w)

/-- The WHERE clause on tenant and collection: the mandatory tenant match
and, exactly when the Python argument `collection_ids` is not None, the
clause `c.collection_id = ANY(CAST(:collection_ids AS uuid[]))`; with an
empty array that clause matches nothing. -/
def rowMatchesFilter (tenant_id : String)
    (collection_ids : Option (List String)) (r : ChunkRow) : Bool :=
  r.tenant_id == tenant_id &&
    (match collection_ids with
     | none => true
     | some cids => cids.contains r.collection_id)

/-- Embedding of `keyword_search` (keyword_retriever.py lines 31-107) over a
model of the chunks table: the two early returns on an empty query or an
empty tsquery, then the scoped SQL query with ORDER BY rank DESC (one
admissible deterministic ordering) and LIMIT topk; rows map to
RetrievedChunk with an empty `document_filename`. The fts_config validation
(lines 48-51) only selects a Postgres text-search config and is fixed to the
`simple` semantics here. -/
def keyword_search (rows : List ChunkRow) (rankFn : RankFn)
    (tenant_id : String) (collection_ids : Option (List String))
    (query : String) (topk : ℕ) : List RetrievedChunk :=
  if pyStrip query = "" then []
  else
    let safe_words := buildOrTsquery query
    if safe_words = [] then []
    else
      let matched := rows.filter (fun r =>
        rowMatchesFilter tenant_id collection_ids r && rowMatchesQuery safe_words r)
      let ordered := List.insertionSort
        (fun (a b : ChunkRow) =>
          rankFn b.content_tsv safe_words ≤ rankFn a.content_tsv safe_words)
        matched
      (ordered.take topk).map (fun r =>
        { chunk_id := r.id, document_id := r.document_id, document_filename := "",
          content := r.content, page_number := r.page_number,
          section_title := r.section_title,
          score := rankFn r.content_tsv safe_words })

theorem keyword_search_mem (rows : List ChunkRow) (rankFn : RankFn)
    (tenant_id : String) (collection_ids : Option (List String))
    (query : String) (topk : ℕ) :
    ∀ c ∈ keyword_search rows rankFn tenant_id collection_ids query topk,
      ∃ r ∈ rows, rowMatchesFilter tenant_id collection_ids r = true ∧
        rowMatchesQuery (buildOrTsquery query) r = true ∧ c.chunk_id = r.id := by
  intro c hc
  unfold keyword_search at hc
  by_cases h1 : pyStrip query = ""
  · rw [if_pos h1] at hc
    simp at hc
  · rw [if_neg h1] at hc
    dsimp only at hc
    by_cases h2 : buildOrTsquery query = []
    · rw [if_pos h2] at hc
      simp at hc
    · rw [if_neg h2] at hc
      obtain ⟨r, hr_mem, rfl⟩ := List.mem_map.mp hc
      have hr_sorted := List.take_subset topk _ hr_mem
      have hr_matched := (List.perm_insertionSort
        (fun (a b : ChunkRow) => rankFn b.content_tsv (buildOrTsquery query)
          ≤ rankFn a.content_tsv (buildOrTsquery query)) _).mem_iff.mp hr_sorted
      rw [List.mem_filter] at hr_matched
      obtain ⟨hrows, hpred⟩ := hr_matched
      rw [Bool.and_eq_true] at hpred
      exact ⟨r, hrows, hpred.1, hpred.2, rfl⟩

/-- C5 (amended). The tenant filter is mandatory. The collection filter is
applied exactly when the Python argument is not None: with `None`, every
returned chunk comes from a tenant-matching, query-matching row and every
such row is returned when the matches fit within `topk`; with a given set,
rows are additionally filtered by membership in it, so a non-null EMPTY set
matches nothing and the result is empty, rather than meaning
"no collection filter". -/
theorem keyword_search_collection_filter (rows : List ChunkRow) (rankFn : RankFn)
    (tenant_id : String) (query : String) (topk : ℕ) :
    (∀ c ∈ keyword_search rows rankFn tenant_id none query topk,
        ∃ r ∈ rows, r.tenant_id = tenant_id ∧
          rowMatchesQuery (buildOrTsquery query) r = true ∧ c.chunk_id = r.id) ∧
    (∀ cids, ∀ c ∈ keyword_search rows rankFn tenant_id (some cids) query topk,
        ∃ r ∈ rows, r.tenant_id = tenant_id ∧ r.collection_id ∈ cids ∧
          rowMatchesQuery (buildOrTsquery query) r = true ∧ c.chunk_id = r.id) ∧
    (∀ cids0, (rows.filter (fun r =>
          rowMatchesFilter tenant_id cids0 r
            && rowMatchesQuery (buildOrTsquery query) r)).length ≤ topk →
        ∀ r ∈ rows, rowMatchesFilter tenant_id cids0 r = true →
          rowMatchesQuery (buildOrTsquery query) r = true →
          pyStrip query ≠ "" → buildOrTsquery query ≠ [] →
          r.id ∈ (keyword_search rows rankFn tenant_id cids0 query topk).map
            RetrievedChunk.chunk_id) ∧
    keyword_search rows rankFn tenant_id (some []) query topk = [] := by
  refine ⟨?_, ?_, ?_, ?_⟩
  · intro c hc
    obtain ⟨r, hr, hfil, hq, hid⟩ :=
      keyword_search_mem rows rankFn tenant_id none query topk c hc
    refine ⟨r, hr, ?_, hq, hid⟩
    simpa [rowMatchesFilter] using hfil
  · intro cids c hc
    obtain ⟨r, hr, hfil, hq, hid⟩ :=
      keyword_search_mem rows rankFn tenant_id (some cids) query topk c hc
    simp only [rowMatchesFilter, Bool.and_eq_true, beq_iff_eq] at hfil
    refine ⟨r, hr, hfil.1, ?_, hq, hid⟩
    simpa using hfil.2
  · intro cids0 hlen r hr hfil hq h1 h2
    unfold keyword_search
    rw [if_neg h1]
    dsimp only
    rw [if_neg h2]
    have hmatched : r ∈ rows.filter (fun r =>
        rowMatchesFilter tenant_id cids0 r
          && rowMatchesQuery (buildOrTsquery query) r) := by
      rw [List.mem_filter]
      exact ⟨hr, by rw [Bool.and_eq_true]; exact ⟨hfil, hq⟩⟩
    have hperm := List.perm_insertionSort
      (fun (a b : ChunkRow) => rankFn b.content_tsv (buildOrTsquery query)
        ≤ rankFn a.content_tsv (buildOrTsquery query))
      (rows.filter (fun r => rowMatchesFilter tenant_id cids0 r
        && rowMatchesQuery (buildOrTsquery query) r))
    have hsortlen : (List.insertionSort
        (fun (a b : ChunkRow) => rankFn b.content_tsv (buildOrTsquery query)
          ≤ rankFn a.content_tsv (buildOrTsquery query))
        (rows.filter (fun r => rowMatchesFilter tenant_id cids0 r
          && rowMatchesQuery (buildOrTsquery query) r))).length ≤ topk := by
      rw [hperm.length_eq]
      exact hlen
    rw [List.take_of_length_le hsortlen, List.map_map]
    exact List.mem_map.mpr ⟨r, hperm.mem_iff.mpr hmatched, rfl⟩
  · unfold keyword_search
    by_cases h1 : pyStrip query = ""
    · rw [if_pos h1]
    · rw [if_neg h1]
      dsimp only
      by_cases h2 : buildOrTsquery query = []
      · rw [if_pos h2]
      · rw [if_neg h2]
        have hnil : rows.filter (fun r =>
            rowMatchesFilter tenant_id (some []) r
              && rowMatchesQuery (buildOrTsquery query) r) = [] := by
          apply List.filter_eq_nil_iff.mpr
          intro r hr
          simp [rowMatchesFilter]
        rw [hnil]
        simp

/-- A concrete table row used by witnesses. -/
def row1 : ChunkRow :=
  { id := "c1", document_id := "d1", tenant_id := "t", collection_id := "col1",
    content := "hello world", content_tsv := ["hello", "world"],
    page_number := none, section_title := none }

/-- A constant rank function standing in for ts_rank_cd in witnesses. -/
def constRank : RankFn := fun _ _ => 1

theorem keyword_search_collection_filter_witness :
    row1.id ∈ (keyword_search [row1] constRank "t" none "hello" 10).map
      RetrievedChunk.chunk_id := by
  apply (keyword_search_collection_filter [row1] constRank "t" "hello" 10).2.2.1 none
  · decide
  · exact List.mem_cons_self row1 []
  · decide
  · decide
  · decide
  · decide

/-- C5, counterexample to the claim as stated: a tenant-matching,
query-matching row is returned with a null collection set but NOT with a
non-null empty collection set: the empty set means "match nothing" in this
code, not "no collection filter". -/
theorem keyword_search_empty_set_counterexample :
    row1.tenant_id = "t" ∧
    rowMatchesQuery (buildOrTsquery "hello") row1 = true ∧
    keyword_search [row1] constRank "t" (some []) "hello" 10 = [] ∧
    keyword_search [row1] constRank "t" none "hello" 10
      = [{ chunk_id := "c1", document_id := "d1", document_filename := "",
           content := "hello world", page_number := none, section_title := none,
           score := 1 }] := by
  refine ⟨rfl, by decide, by decide, by decide⟩

/-- A point stored in the Qdrant collection, with the payload fields the
retrieval code reads. -/
structure QPoint where
  id : String
  tenant_id : String
  collection_id : String
  document_id : String
  document_filename : String
  content : String
  page_number : Option Int
  section_title : Option String
deriving DecidableEq, Repr

/-- The must-filter built by `VectorStore.search` (vector_store.py lines
147-166): the mandatory tenant match and, exactly when `collection_ids` is
not None, a should-clause matching any of the given collection ids (the
code documents: empty list = match nothing). -/
def qpMatchesFilter (tenant_id : String)
    (collection_ids : Option (List String)) (p : QPoint) : Bool :=
  p.tenant_id == tenant_id &&
    (match collection_ids with
     | none => true
     | some cids => cids.contains p.collection_id)

/-- Model of the external Qdrant `query_points` call, from its documented
semantics: among the stored points matching the filter, those whose
similarity to the query is at least `score_threshold` are returned, ordered
by similarity descending, at most `limit` of them. `sim` gives the
similarity of each stored point to the query vector (cosine similarity, so
it can be negative). -/
def qdrantQueryPoints (points : List QPoint) (sim : QPoint → ℚ)
    (filt : QPoint → Bool) (limit : ℕ) (score_threshold : ℚ) : List QPoint :=
  (List.insertionSort (fun (a b : QPoint) => sim b ≤ sim a)
    ((points.filter filt).filter (fun p => score_threshold ≤ sim p))).take limit

/-- Embedding of `VectorStore.search` (vector_store.py lines 131-183): build
the filter, query the index, return (id, score, payload) triples. -/
def vectorStoreSearch (points : List QPoint) (sim : QPoint → ℚ)
    (tenant_id : String) (collection_ids : Option (List String))
    (limit : ℕ) (score_threshold : ℚ) : List (String × ℚ × QPoint) :=
  (qdrantQueryPoints points sim (qpMatchesFilter tenant_id collection_ids)
      limit score_threshold).map (fun p => (p.id, sim p, p))

/-- Embedding of `vector_search` (vector_retriever.py lines 12-44): calls the
store with `score_threshold=0.0` and maps hits to `RetrievedChunk`. -/
def vector_search (points : List QPoint) (sim : QPoint → ℚ)
    (tenant_id : String) (collection_ids : Option (List String)) (topk : ℕ) :
    List RetrievedChunk :=
  (vectorStoreSearch points sim tenant_id collection_ids topk 0).map
    (fun h => match h with
      | (pid, pscore, payload) =>
        { chunk_id := pid, document_id := payload.document_id,
          document_filename := payload.document_filename,
          content := payload.content, page_number := payload.page_number,
          section_title := payload.section_title, score := pscore })

/-- C6 (amended). `vector_search` passes `score_threshold=0.0` to the store,
so what reaches the caller is exactly the filter-matching hits of
NON-NEGATIVE similarity, ordered by similarity descending, up to `topk` (no
hit above that threshold is dropped); hits with negative similarity are cut
off by the zero threshold, so a score threshold of 0 is in effect at this
layer. -/
theorem vector_search_zero_threshold (points : List QPoint) (sim : QPoint → ℚ)
    (tenant_id : String) (collection_ids : Option (List String)) (topk : ℕ) :
    (∀ c ∈ vector_search points sim tenant_id collection_ids topk,
        ∃ p ∈ points, qpMatchesFilter tenant_id collection_ids p = true ∧
          0 ≤ sim p ∧ c.chunk_id = p.id ∧ c.score = sim p) ∧
    (vector_search points sim tenant_id collection_ids topk).Pairwise
      (fun a b => b.score ≤ a.score) ∧
    (vector_search points sim tenant_id collection_ids topk).length
      = min topk (((points.filter (qpMatchesFilter tenant_id collection_ids)).filter
          (fun p => decide ((0 : ℚ) ≤ sim p))).length) := by
  have hperm := List.perm_insertionSort (fun (a b : QPoint) => sim b ≤ sim a)
    ((points.filter (qpMatchesFilter tenant_id collection_ids)).filter
      (fun p => decide ((0 : ℚ) ≤ sim p)))
  refine ⟨?_, ?_, ?_⟩
  · intro c hc
    unfold vector_search vectorStoreSearch qdrantQueryPoints at hc
    rw [List.map_map] at hc
    obtain ⟨p, hp_mem, rfl⟩ := List.mem_map.mp hc
    have hp_sorted := List.take_subset topk _ hp_mem
    have hp_filtered := hperm.mem_iff.mp hp_sorted
    rw [List.mem_filter] at hp_filtered
    obtain ⟨hp_f1, hp_thr⟩ := hp_filtered
    rw [List.mem_filter] at hp_f1
    exact ⟨p, hp_f1.1, hp_f1.2, of_decide_eq_true hp_thr, rfl, rfl⟩
  · unfold vector_search vectorStoreSearch qdrantQueryPoints
    rw [List.map_map, List.pairwise_map]
    have hsorted : (List.insertionSort (fun (a b : QPoint) => sim b ≤ sim a)
        ((points.filter (qpMatchesFilter tenant_id collection_ids)).filter
          (fun p => decide ((0 : ℚ) ≤ sim p)))).Pairwise
        (fun a b => sim b ≤ sim a) :=
      sorted_insertionSort_key sim _
    exact List.Pairwise.sublist (List.take_sublist topk _) hsorted
  · unfold vector_search vectorStoreSearch qdrantQueryPoints
    rw [List.map_map, List.length_map, List.length_take, hperm.length_eq]

/-- A concrete stored point used by witnesses. -/
def point1 : QPoint :=
  { id := "p1", tenant_id := "t", collection_id := "col1", document_id := "d1",
    document_filename := "a.pdf", content := "alpha",
    page_number := some 1, section_title := none }

/-- A similarity function that gives every point the cosine similarity -1
(for example, the stored vector opposite to the query vector). -/
def negSim : QPoint → ℚ := fun _ => -1

theorem vector_search_zero_threshold_witness :
    ∃ p ∈ [point1], qpMatchesFilter "t" none p = true ∧
      (0 : ℚ) ≤ (fun _ => (1 : ℚ)) p ∧
      ({ chunk_id := "p1", document_id := "d1", document_filename := "a.pdf",
         content := "alpha", page_number := some 1, section_title := none,
         score := 1 } : RetrievedChunk).chunk_id = p.id ∧
      ({ chunk_id := "p1", document_id := "d1", document_filename := "a.pdf",
         content := "alpha", page_number := some 1, section_title := none,
         score := 1 } : RetrievedChunk).score = (fun _ => (1 : ℚ)) p := by
  apply (vector_search_zero_threshold [point1] (fun _ => (1 : ℚ)) "t" none 5).1
  have hcomp : vector_search [point1] (fun _ => (1 : ℚ)) "t" none 5
      = [{ chunk_id := "p1", document_id := "d1", document_filename := "a.pdf",
           content := "alpha", page_number := some 1, section_title := none,
           score := 1 }] := by decide
  rw [hcomp]
  exact List.mem_singleton.mpr rfl

/-- C6, counterexample to the claim as stated: a point matching the
tenant filter whose similarity to the query is negative is a hit of the
index for that filter, yet `vector_search` does not return it, because it
passes `score_threshold=0.0` to the store. -/
theorem vector_search_zero_threshold_counterexample :
    qpMatchesFilter "t" none point1 = true ∧
    [point1].filter (qpMatchesFilter "t" none) = [point1] ∧
    negSim point1 < 0 ∧
    vector_search [point1] negSim "t" none 5 = [] := by
  refine ⟨by decide, by decide, by decide, by decide⟩

/-- Embedding of the dataclass `TextChunk` from `app/core/chunking.py`. -/
structure TextChunk where
  content : String
  content_hash : String
  token_count : ℕ
  chunk_index : ℕ
  page_number : Option Int := none
  start_offset : Option Int := none
  end_offset : Option Int := none
  section_title : Option String := none
deriving DecidableEq, Repr

/-- Embedding of the `Chunker` class (chunking.py lines 28-47). The tiktoken
encoding and the sha256 hex digest are external collaborators, taken as
parameters: `enc`/`dec` model `self.encoding.encode`/`.decode` and
`sha256hex` models `_compute_hash`. -/
structure Chunker where
  chunk_size : ℕ
  chunk_overlap : ℕ
  enc : String → List ℕ
  dec : List ℕ → String
  sha256hex : String → String

/-- `count_tokens` (lines 41-43): the length of the encoded text. -/
def Chunker.count_tokens (ck : Chunker) (s : String) : ℕ := (ck.enc s).length

/-- A sentence-ending punctuation character of the class `[.!?]`. -/
def isSentEnd (c : Char) : Bool := c = '.' || c = '!' || c = '?'

/-- State machine for `re.split(r"(?<=[.!?])\s+", text)` (ASCII whitespace
model): a maximal whitespace run immediately preceded by sentence-ending
punctuation separates pieces and is consumed. `acc` holds the current piece
reversed; the boolean is true while consuming the whitespace of a split. -/
def splitSentRun : List Char → List Char → Bool → List String
  | [], acc, _ => [String.mk acc.reverse]
  | c :: rest, acc, true =>
      if c.isWhitespace then splitSentRun rest acc true
      else splitSentRun rest [c] false
  | c :: rest, acc, false =>
      if c.isWhitespace && (match acc with | p :: _ => isSentEnd p | [] => false) then
        String.mk acc.reverse :: splitSentRun rest [] true
      else splitSentRun rest (c :: acc) false

/-- `_split_into_sentences` (chunking.py lines 49-55): split on sentence
boundaries, strip each piece, drop the empty ones. -/
def splitIntoSentences (text : String) : List String :=
  ((splitSentRun text.data [] false).map pyStrip).filter (fun s => s != "")

/-- The running state of the `chunk_text` loop (lines 71-75). -/
structure ChunkState where
  chunks : List TextChunk
  current_chunk : List String
  current_tokens : ℕ
  chunk_index : ℕ
  text_offset : ℤ

/-- The overlap-retention loop (lines 136-148): walk the flushed window from
its end (`rev` is the window reversed) and keep whole trailing sentences
while they fit within `chunk_overlap` tokens, preserving order. Returns
(overlap_sentences, overlap_tokens). -/
def Chunker.takeOverlap (ck : Chunker) :
    List String → List String → ℕ → List String × ℕ
  | [], ovs, ovt => (ovs, ovt)
  | s :: rev, ovs, ovt =>
      let st := ck.count_tokens s
      if ovt + st ≤ ck.chunk_overlap then ck.takeOverlap rev (s :: ovs) (ovt + st)
      else (ovs, ovt)

/-- Python `" ".join`. -/
def joinSp : List String → String
  | [] => ""
  | [s] => s
  | s :: rest => s ++ " " ++ joinSp rest

/-- Flushing the current window as a chunk (the duplicated blocks at lines
83-97, 120-134 and 155-166): appends the joined window with its running
token count and advances the chunk index; the window itself is left to the
caller to reset or reseed. -/
def Chunker.flushCurrent (ck : Chunker) (pn : Option Int)
    (stitle : Option String) (st : ChunkState) : ChunkState :=
  if st.current_chunk = [] then st
  else
    let chunk_text := joinSp st.current_chunk
    { st with
      chunks := st.chunks ++
        [{ content := chunk_text,
           content_hash := ck.sha256hex chunk_text,
           token_count := st.current_tokens,
           chunk_index := st.chunk_index,
           page_number := pn,
           start_offset := some (st.text_offset - chunk_text.length),
           end_offset := some st.text_offset,
           section_title := stitle }],
      chunk_index := st.chunk_index + 1 }

/-- The token slices of the hard split (lines 100-102): Python
`for i in range(0, len(tokens), chunk_size - chunk_overlap)` with slices
`tokens[i : i + chunk_size]`; `step` is positive whenever
`chunk_overlap < chunk_size`, the regime the configuration guarantees. -/
def hardSplitSlices (cs step : ℕ) (tokens : List ℕ) : List (List ℕ) :=
  (List.range ((tokens.length + step - 1) / step)).map
    (fun j => (tokens.drop (j * step)).take cs)

/-- Emitting the hard-split chunks (lines 102-115): one chunk per token
slice, with the decoded text, the slice length as token count, and the
text offset advanced by the decoded length. -/
def Chunker.emitSlices (ck : Chunker) (pn : Option Int) (stitle : Option String) :
    List (List ℕ) → ChunkState → ChunkState
  | [], st => st
  | piece :: more, st =>
      let ctext := ck.dec piece
      ck.emitSlices pn stitle more
        { st with
          chunks := st.chunks ++
            [{ content := ctext,
               content_hash := ck.sha256hex ctext,
               token_count := piece.length,
               chunk_index := st.chunk_index,
               page_number := pn,
               start_offset := some st.text_offset,
               end_offset := some (st.text_offset + ctext.length),
               section_title := stitle }],
          chunk_index := st.chunk_index + 1,
          text_offset := st.text_offset + ctext.length }

/-- The sentence loop of `chunk_text` (lines 77-166): an over-long sentence
flushes the window and is hard-split directly; otherwise a sentence that
would overflow the window flushes it and reseeds it with the retained
overlap; the sentence is then appended to the window, and a trailing
non-empty window is flushed at the end. -/
def Chunker.chunkLoop (ck : Chunker) (pn : Option Int) (stitle : Option String) :
    List String → ChunkState → List TextChunk
  | [], st => (ck.flushCurrent pn stitle st).chunks
  | sentence :: rest, st =>
      let sentence_tokens := ck.count_tokens sentence
      if ck.chunk_size < sentence_tokens then
        let st1 := ck.flushCurrent pn stitle st
        let st2 := ck.emitSlices pn stitle
          (hardSplitSlices ck.chunk_size (ck.chunk_size - ck.chunk_overlap)
            (ck.enc sentence)) st1
        ck.chunkLoop pn stitle rest
          { st2 with current_chunk := [], current_tokens := 0 }
      else
        let st1 :=
          if ck.chunk_size < st.current_tokens + sentence_tokens then
            if st.current_chunk = [] then st
            else
              let stf := ck.flushCurrent pn stitle st
              let ov := ck.takeOverlap st.current_chunk.reverse [] 0
              { stf with current_chunk := ov.1, current_tokens := ov.2 }
          else st
        ck.chunkLoop pn stitle rest
          { st1 with
            current_chunk := st1.current_chunk ++ [sentence],
            current_tokens := st1.current_tokens + sentence_tokens,
            text_offset := st1.text_offset + sentence.length + 1 }

/-- Embedding of `Chunker.chunk_text` (chunking.py lines 57-168). -/
def Chunker.chunk_text (ck : Chunker) (text : String) (page_number : Option Int)
    (section_title : Option String) : List TextChunk :=
  if text = "" ∨ pyStrip text = "" then []
  else
    let sentences := splitIntoSentences text
    if sentences = [] then []
    else ck.chunkLoop page_number section_title sentences
      { chunks := [], current_chunk := [], current_tokens := 0,
        chunk_index := 0, text_offset := 0 }

theorem takeOverlap_le (ck : Chunker) (rev ovs : List String) (ovt : ℕ)
    (h : ovt ≤ ck.chunk_overlap) :
    (ck.takeOverlap rev ovs ovt).2 ≤ ck.chunk_overlap := by
  induction rev generalizing ovs ovt with
  | nil => exact h
  | cons s rest ih =>
    unfold Chunker.takeOverlap
    dsimp only
    by_cases hc : ovt + ck.count_tokens s ≤ ck.chunk_overlap
    · rw [if_pos hc]
      exact ih _ _ hc
    · rw [if_neg hc]
      exact h

theorem flushCurrent_current (ck : Chunker) (pn : Option Int)
    (stitle : Option String) (st : ChunkState) :
    (ck.flushCurrent pn stitle st).current_chunk = st.current_chunk ∧
    (ck.flushCurrent pn stitle st).current_tokens = st.current_tokens := by
  unfold Chunker.flushCurrent
  by_cases h : st.current_chunk = []
  · rw [if_pos h]
    exact ⟨rfl, rfl⟩
  · rw [if_neg h]
    exact ⟨rfl, rfl⟩

theorem flushCurrent_chunks (ck : Chunker) (pn : Option Int)
    (stitle : Option String) (st : ChunkState) (c : TextChunk)
    (h : c ∈ (ck.flushCurrent pn stitle st).chunks) :
    c ∈ st.chunks ∨ c.token_count = st.current_tokens := by
  unfold Chunker.flushCurrent at h
  by_cases hnil : st.current_chunk = []
  · rw [if_pos hnil] at h
    exact Or.inl h
  · rw [if_neg hnil] at h
    dsimp only at h
    simp only [List.mem_append, List.mem_singleton] at h
    rcases h with h | h
    · exact Or.inl h
    · subst h
      exact Or.inr rfl

theorem hardSplitSlices_length (cs step : ℕ) (tokens : List ℕ) :
    ∀ piece ∈ hardSplitSlices cs step tokens, piece.length ≤ cs := by
  intro piece hp
  unfold hardSplitSlices at hp
  obtain ⟨j, _, rfl⟩ := List.mem_map.mp hp
  rw [List.length_take]
  exact min_le_left _ _

theorem emitSlices_chunks (ck : Chunker) (pn : Option Int)
    (stitle : Option String) (pieces : List (List ℕ)) (st : ChunkState)
    (c : TextChunk) (h : c ∈ (ck.emitSlices pn stitle pieces st).chunks) :
    c ∈ st.chunks ∨ ∃ piece ∈ pieces, c.token_count = piece.length := by
  induction pieces generalizing st with
  | nil => exact Or.inl h
  | cons piece more ih =>
    unfold Chunker.emitSlices at h
    rcases ih _ h with h' | h'
    · dsimp only at h'
      simp only [List.mem_append, List.mem_singleton] at h'
      rcases h' with h' | h'
      · exact Or.inl h'
      · subst h'
        exact Or.inr ⟨piece, List.mem_cons_self _ _, rfl⟩
    · obtain ⟨p, hp, hc⟩ := h'
      exact Or.inr ⟨p, List.mem_cons_of_mem _ hp, hc⟩

theorem chunkLoop_token_bound (ck : Chunker) (pn : Option Int)
    (stitle : Option String) (sentences : List String) (st : ChunkState)
    (hchunks : ∀ c ∈ st.chunks, c.token_count ≤ ck.chunk_size + ck.chunk_overlap)
    (hct : st.current_tokens ≤ ck.chunk_size + ck.chunk_overlap)
    (hcc : st.current_chunk = [] → st.current_tokens = 0) :
    ∀ c ∈ ck.chunkLoop pn stitle sentences st,
      c.token_count ≤ ck.chunk_size + ck.chunk_overlap := by
  induction sentences generalizing st with
  | nil =>
    intro c hc
    unfold Chunker.chunkLoop at hc
    rcases flushCurrent_chunks ck pn stitle st c hc with h | h
    · exact hchunks c h
    · rw [h]
      exact hct
  | cons sentence rest ih =>
    intro c hc
    unfold Chunker.chunkLoop at hc
    by_cases hbig : ck.chunk_size < ck.count_tokens sentence
    · rw [if_pos hbig] at hc
      dsimp only at hc
      refine ih _ ?_ ?_ ?_ c hc
      · intro c' hc'
        dsimp only at hc'
        rcases emitSlices_chunks ck pn stitle _ _ c' hc' with h' | h'
        · rcases flushCurrent_chunks ck pn stitle st c' h' with h'' | h''
          · exact hchunks c' h''
          · rw [h'']
            exact hct
        · obtain ⟨piece, hp, hlen⟩ := h'
          rw [hlen]
          have := hardSplitSlices_length ck.chunk_size
            (ck.chunk_size - ck.chunk_overlap) (ck.enc sentence) piece hp
          omega
      · exact Nat.zero_le _
      · intro _
        rfl
    · rw [if_neg hbig] at hc
      push_neg at hbig
      by_cases hover : ck.chunk_size < st.current_tokens + ck.count_tokens sentence
      · rw [if_pos hover] at hc
        by_cases hnil : st.current_chunk = []
        · rw [if_pos hnil] at hc
          dsimp only at hc
          refine ih _ ?_ ?_ ?_ c hc
          · intro c' hc'
            exact hchunks c' hc'
          · show st.current_tokens + ck.count_tokens sentence
              ≤ ck.chunk_size + ck.chunk_overlap
            have h0 := hcc hnil
            omega
          · intro hx
            exact absurd hx (by simp)
        · rw [if_neg hnil] at hc
          dsimp only at hc
          refine ih _ ?_ ?_ ?_ c hc
          · intro c' hc'
            rcases flushCurrent_chunks ck pn stitle st c' hc' with h' | h'
            · exact hchunks c' h'
            · rw [h']
              exact hct
          · show (ck.takeOverlap st.current_chunk.reverse [] 0).2
                + ck.count_tokens sentence
              ≤ ck.chunk_size + ck.chunk_overlap
            have hov := takeOverlap_le ck st.current_chunk.reverse [] 0
              (Nat.zero_le _)
            omega
          · intro hx
            exact absurd hx (by simp)
      · rw [if_neg hover] at hc
        push_neg at hover
        dsimp only at hc
        refine ih _ ?_ ?_ ?_ c hc
        · intro c' hc'
          exact hchunks c' hc'
        · show st.current_tokens + ck.count_tokens sentence
            ≤ ck.chunk_size + ck.chunk_overlap
          omega
        · intro hx
          exact absurd hx (by simp)

/-- C3 (amended). For every tokenizer and every configuration with
chunk_overlap < chunk_size: every chunk produced by `Chunker.chunk_text` has
token_count ≤ chunk_size + chunk_overlap — the window reseeded with overlap
plus the next sentence may exceed chunk_size by up to chunk_overlap, so the
bound token_count ≤ chunk_size does not hold in general; every hard-split
token slice carries at most chunk_size tokens (a hard-split remainder never
exceeds chunk_size); and the overlap carried forward into the next window is
at most chunk_overlap tokens. -/
theorem chunker_token_bounds (ck : Chunker)
    (_hco : ck.chunk_overlap < ck.chunk_size) (text : String)
    (pn : Option Int) (stitle : Option String) :
    (∀ c ∈ ck.chunk_text text pn stitle,
        c.token_count ≤ ck.chunk_size + ck.chunk_overlap) ∧
    (∀ tokens piece, piece ∈ hardSplitSlices ck.chunk_size
        (ck.chunk_size - ck.chunk_overlap) tokens →
        piece.length ≤ ck.chunk_size) ∧
    (∀ window, (ck.takeOverlap window [] 0).2 ≤ ck.chunk_overlap) := by
  refine ⟨?_, ?_, ?_⟩
  · intro c hc
    unfold Chunker.chunk_text at hc
    by_cases h1 : text = "" ∨ pyStrip text = ""
    · rw [if_pos h1] at hc
      simp at hc
    · rw [if_neg h1] at hc
      dsimp only at hc
      by_cases h2 : splitIntoSentences text = []
      · rw [if_pos h2] at hc
        simp at hc
      · rw [if_neg h2] at hc
        refine chunkLoop_token_bound ck pn stitle _ _ ?_ ?_ ?_ c hc
        · intro c' hc'
          simp at hc'
        · exact Nat.zero_le _
        · intro _
          rfl
  · intro tokens piece hp
    exact hardSplitSlices_length _ _ _ piece hp
  · intro window
    exact takeOverlap_le ck window [] 0 (Nat.zero_le _)

/-- A one-token-per-character tokenizer, instantiating the external tiktoken
encoding for witnesses. -/
def charEnc (s : String) : List ℕ := s.data.map Char.toNat

/-- The matching decoder. -/
def charDec (l : List ℕ) : String := String.mk (l.map Char.ofNat)

/-- A concrete chunker with chunk_size 6 and chunk_overlap 3 over the
one-token-per-character tokenizer (the hash collaborator is irrelevant to
token counts). -/
def charChunker : Chunker :=
  { chunk_size := 6, chunk_overlap := 3, enc := charEnc, dec := charDec,
    sha256hex := fun _ => "" }

theorem chunker_token_bounds_witness :
    ({ content := "ab. cdefg.", content_hash := "", token_count := 9,
       chunk_index := 1, page_number := none, start_offset := some 1,
       end_offset := some 11, section_title := none } : TextChunk).token_count
      ≤ charChunker.chunk_size + charChunker.chunk_overlap := by
  apply (chunker_token_bounds charChunker (by decide) "ab. cdefg. h." none none).1
  decide

/-- C3, counterexample to the claim as stated: with chunk_overlap 3 <
chunk_size 6, no sentence of the input exceeds chunk_size (so no hard split
happens and there is no hard-split remainder at all), yet the second of the
three produced chunks carries 9 > 6 tokens — the overlap-reseeded window
plus the following sentence. It is not final and not a hard-split remainder,
so the claimed exception does not cover it. -/
theorem chunker_token_bound_counterexample :
    charChunker.chunk_overlap < charChunker.chunk_size ∧
    (∀ s ∈ splitIntoSentences "ab. cdefg. h.",
        charChunker.count_tokens s ≤ charChunker.chunk_size) ∧
    (charChunker.chunk_text "ab. cdefg. h." none none).map TextChunk.token_count
      = [3, 9, 2] ∧
    charChunker.chunk_size < 9 := by
  refine ⟨by decide, by decide, by decide, by decide⟩
